import Mathlib

/-!
Verification of the orgize Org-mode CST library against its specification.

The code is shallowly embedded: green trees are an inductive type, text is
`List Char`, fallible parsers return `Option (result × rest)`, and panics
are modelled as `none`.  Functions translated from the Rust source keep the
source's names.  Parts of the repository that are referenced but whose
source files are absent (the document/headline element parsers and the
low-level combinator module) are modelled from the specification and carry
a doc comment saying so.
-/

/-- Curly brace characters, named to keep brace glyphs out of string
literals. -/
def lcub : Char := Char.ofNat 123

/-- Closing curly brace character. -/
def rcub : Char := Char.ofNat 125

/-- Shorthand: the character list of a string literal. -/
def chars (s : String) : List Char := s.data

/-- The subset of `SyntaxKind` (src/src/syntax/mod.rs via its users) needed
by the claims: node kinds and token kinds used by the embedded functions. -/
inductive SyntaxKind where
  | DOCUMENT | SECTION | HEADLINE | PARAGRAPH
  | PROPERTY_DRAWER | DRAWER | DRAWER_BEGIN | DRAWER_CONTENT | DRAWER_END
  | NODE_PROPERTY | KEYWORD | LINK | CLOZE | SUBSCRIPT | SUPERSCRIPT
  | STAR | WHITESPACE | TEXT | NEW_LINE | BLANK_LINE | COLON | PLUS
  | L_BRACKET | R_BRACKET2 | LINK_PATH
  | L_CURLY | L_CURLY2 | R_CURLY | AT | UNDERSCORE | CARET | DOLLAR
  deriving DecidableEq, Repr

open SyntaxKind

/-- A green element (rowan `GreenNode`/`GreenToken` as used by orgize):
either a leaf token carrying text, or a node with a kind and children. -/
inductive GreenElement where
  | token (kind : SyntaxKind) (text : List Char)
  | node (kind : SyntaxKind) (children : List GreenElement)

namespace GreenElement

/-- Kind of a green element. -/
def kind_of : GreenElement → SyntaxKind
  | token k _ => k
  | node k _ => k

/-- Whether the element is a node (not a token). -/
def is_node : GreenElement → Bool
  | token _ _ => false
  | node _ _ => true

mutual
/-- Concatenated text of every leaf token in depth-first order.  This is
`GreenNode::to_string` (what `Org::to_org` in src/src/org.rs returns). -/
def leaf_chars : GreenElement → List Char
  | token _ t => t
  | node _ cs => leaf_chars_list cs

/-- Leaf text of a list of green elements, concatenated in order. -/
def leaf_chars_list : List GreenElement → List Char
  | [] => []
  | c :: cs => leaf_chars c ++ leaf_chars_list cs
end

/-- Text length of a green element (rowan `text_len`). -/
def g_len (g : GreenElement) : Nat := (leaf_chars g).length

mutual
/-- A size measure on green elements, used as recursion fuel. -/
def gsize : GreenElement → Nat
  | token _ _ => 1
  | node _ cs => gsize_list cs + 1

/-- Size of a list of green elements. -/
def gsize_list : List GreenElement → Nat
  | [] => 0
  | c :: cs => gsize c + gsize_list cs
end

/-- Direct children of a node (empty for tokens). -/
def children_of : GreenElement → List GreenElement
  | token _ _ => []
  | node _ cs => cs

end GreenElement

open GreenElement

/-- Texts of the direct child tokens of a given kind, in order.  This is the
filter underlying `rowan::ast::support::token` and `filter_token`
(src/src/ast/mod.rs): only tokens are kept, and only those of the kind. -/
def tokens_of_kind (n : GreenElement) (k : SyntaxKind) : List (List Char) :=
  (children_of n).filterMap fun c =>
    match c with
    | .token k0 t => if k0 = k then some t else none
    | .node _ _ => none

/-- `rowan::ast::support::token`: the first direct child token of the kind. -/
def first_token_of_kind (n : GreenElement) (k : SyntaxKind) : Option (List Char) :=
  (tokens_of_kind n k).head?

/-! ## Link accessors (src/src/ast/link.rs)

`Token` (src/src/ast/mod.rs) compares by its textual content only, so a
token is embedded as its text. -/

/-- `Link::path`: the `LINK_PATH` token.  The source `expect`s its presence;
absence is modelled as `none`. -/
def Link.path (n : GreenElement) : Option (List Char) :=
  first_token_of_kind n LINK_PATH

/-- `Link::has_description`: some direct child element has kind `L_BRACKET`. -/
def Link.has_description (n : GreenElement) : Bool :=
  (children_of n).any fun e => kind_of e = L_BRACKET

/-- The `IMAGE_SUFFIX` table from `Link::is_image` (src/src/ast/link.rs). -/
def IMAGE_SUFFIX : List (List Char) :=
  [chars ".png", chars ".jpeg", chars ".jpg", chars ".gif", chars ".tiff",
   chars ".tif", chars ".xbm", chars ".xpm", chars ".pbm", chars ".pgm",
   chars ".ppm", chars ".webp", chars ".avif", chars ".svg"]

/-- `Link::is_image`: the path ends with a registered image suffix and the
link has no description.  `none` models the panic when `LINK_PATH` is
missing. -/
def Link.is_image (n : GreenElement) : Option Bool :=
  (Link.path n).map fun p =>
    (IMAGE_SUFFIX.any fun e => e.isSuffixOf p) && !Link.has_description n

/-! ## Document accessors (src/src/ast/document.rs) -/

/-- `Document::section` (generated accessor, modelled from the spec:
`rowan::ast::support::child`, the first child node of kind `SECTION`;
the spec calls it the zeroth, top-level section). -/
def Document.section (doc : GreenElement) : Option GreenElement :=
  (children_of doc).find? fun c => c.is_node && kind_of c = SECTION

/-- `Document::keywords`: the `KEYWORD` node children of the zeroth section. -/
def Document.keywords (doc : GreenElement) : List GreenElement :=
  match Document.section doc with
  | none => []
  | some s => (children_of s).filter fun c => c.is_node && kind_of c = KEYWORD

/-- `Keyword::key` (src/src/ast/keyword.rs): the first `TEXT` token. -/
def Keyword.key (n : GreenElement) : Option (List Char) :=
  (tokens_of_kind n TEXT).head?

/-- `Keyword::value` (src/src/ast/keyword.rs): the second `TEXT` token. -/
def Keyword.value (n : GreenElement) : Option (List Char) :=
  (tokens_of_kind n TEXT).get? 1

/-- ASCII-case-insensitive character equality (`eq_ignore_ascii_case`). -/
def ci_eq (a b : Char) : Bool := a.toLower = b.toLower

/-- ASCII-case-insensitive string equality. -/
def ci_eq_list (a b : List Char) : Bool :=
  a.length = b.length && (List.zip a b).all fun p => ci_eq p.1 p.2

/-- Rust `str::trim` restricted to the whitespace the inputs use:
leading and trailing whitespace characters are removed. -/
def trim_chars (s : List Char) : List Char :=
  ((s.dropWhile Char.isWhitespace).reverse.dropWhile Char.isWhitespace).reverse

/-- The keywords of the zeroth section whose key is `TITLE`
(ASCII-case-insensitively), in document order. -/
def Document.title_keywords (doc : GreenElement) : List GreenElement :=
  (Document.keywords doc).filter fun kw =>
    match Keyword.key kw with
    | some k => ci_eq_list k (chars "TITLE")
    | none => false

/-- The (untrimmed) values of the TITLE keywords, in document order.
Keywords lacking a value token contribute nothing here; `Document.title`
requires them to be present (the source panics otherwise). -/
def Document.title_values (doc : GreenElement) : List (List Char) :=
  (Document.title_keywords doc).filterMap Keyword.value

/-- The fold step of `Document::title`: append a space when the accumulated
string is nonempty, then append the trimmed value. -/
def title_step (acc : Option (List Char)) (v : List Char) : Option (List Char) :=
  let s := acc.getD []
  let s := if s ≠ [] then s ++ [' '] else s
  some (s ++ trim_chars v)

/-- `Document::title` (src/src/ast/document.rs): fold the trimmed values of
every top-level TITLE keyword, space-separating whenever the accumulator is
nonempty; `none` when there is no TITLE keyword. -/
def Document.title (doc : GreenElement) : Option (List Char) :=
  (Document.title_values doc).foldl title_step none

/-! ## Property drawer accessors (src/src/ast/drawer.rs) -/

/-- Direct `NODE_PROPERTY` node children (generated `node_properties`). -/
def PropertyDrawer.node_properties (d : GreenElement) : List GreenElement :=
  (children_of d).filter fun c => c.is_node && kind_of c = NODE_PROPERTY

/-- `PropertyDrawer::iter`: for each node property, the first two `TEXT`
tokens (key, value); properties with fewer than two are skipped. -/
def PropertyDrawer.iter (d : GreenElement) : List (List Char × List Char) :=
  (PropertyDrawer.node_properties d).filterMap fun p =>
    match tokens_of_kind p TEXT with
    | k :: v :: _ => some (k, v)
    | _ => none

/-- `PropertyDrawer::get`: value of the first pair whose key equals `key`
(`Token` equality is over text only). -/
def PropertyDrawer.get (d : GreenElement) (key : List Char) : Option (List Char) :=
  ((PropertyDrawer.iter d).find? fun p => p.1 = key).map fun p => p.2

/-- One `HashMap::insert`: replace the value of an existing key, else add. -/
def hm_insert (m : List (List Char × List Char)) (p : List Char × List Char) :
    List (List Char × List Char) :=
  if m.any fun q => q.1 = p.1 then
    m.map fun q => if q.1 = p.1 then (q.1, p.2) else q
  else m ++ [p]

/-- `PropertyDrawer::to_hash_map`: collecting the pairs into a `HashMap`,
i.e. inserting them left to right (later pairs overwrite earlier ones). -/
def PropertyDrawer.to_hash_map (d : GreenElement) : List (List Char × List Char) :=
  (PropertyDrawer.iter d).foldl hm_insert []

/-- `HashMap` lookup on the association-list model. -/
def hm_get (m : List (List Char × List Char)) (key : List Char) : Option (List Char) :=
  (m.find? fun p => p.1 = key).map fun p => p.2

/-! ## Parse configuration (src/src/config.rs) -/

/-- `UseSubSuperscript` (src/src/config.rs). -/
inductive UseSubSuperscript where
  | Nil
  | Brace
  | True
  deriving DecidableEq, Repr

/-- `UseSubSuperscript::is_nil`. -/
def UseSubSuperscript.is_nil : UseSubSuperscript → Bool
  | .Nil => true
  | _ => false

/-- `UseSubSuperscript::is_true`. -/
def UseSubSuperscript.is_true : UseSubSuperscript → Bool
  | .True => true
  | _ => false

/-- `UseSubSuperscript::is_brace`. -/
def UseSubSuperscript.is_brace : UseSubSuperscript → Bool
  | .Brace => true
  | _ => false

/-- `ParseConfig` (src/src/config.rs). -/
structure ParseConfig where
  todo_keywords : List String × List String
  dual_keywords : List String
  parsed_keywords : List String
  use_sub_superscript : UseSubSuperscript
  affiliated_keywords : List String

/-- `ParseConfig::default` (src/src/config.rs). -/
def ParseConfig.default : ParseConfig where
  todo_keywords := (["TODO"], ["DONE"])
  dual_keywords := ["CAPTION", "RESULTS"]
  parsed_keywords := ["CAPTION"]
  use_sub_superscript := .True
  affiliated_keywords := ["CAPTION", "DATA", "HEADER", "HEADERS", "LABEL",
    "NAME", "PLOT", "RESNAME", "RESULT", "RESULTS", "SOURCE", "SRCNAME",
    "TBLNAME"]

/-- The default config with `use_sub_superscript` set to brace-only. -/
def braceConfig : ParseConfig :=
  { ParseConfig.default with use_sub_superscript := .Brace }

/-! ## Single-character token recognizers

Modelled from the spec: the low-level recognizers of
src/src/syntax/combinator.rs (absent from src/) each match one fixed
character and emit the corresponding token. -/

/-- Modelled from the spec: one-character token parser factory. -/
def char_token (c : Char) (k : SyntaxKind) (s : List Char) :
    Option (GreenElement × List Char) :=
  match s with
  | c0 :: r => if c0 = c then some (.token k [c0], r) else none
  | [] => none

/-- Modelled from the spec: `caret_token` matches `^`. -/
def caret_token (s : List Char) : Option (GreenElement × List Char) :=
  char_token '^' CARET s

/-- Modelled from the spec: `underscore_token` matches `_`. -/
def underscore_token (s : List Char) : Option (GreenElement × List Char) :=
  char_token '_' UNDERSCORE s

/-- Modelled from the spec: `l_curly_token` matches an opening brace. -/
def l_curly_token (s : List Char) : Option (GreenElement × List Char) :=
  char_token lcub L_CURLY s

/-- Modelled from the spec: `r_curly_token` matches a closing brace. -/
def r_curly_token (s : List Char) : Option (GreenElement × List Char) :=
  char_token rcub R_CURLY s

/-- Modelled from the spec: `at_token` matches `@`. -/
def at_token (s : List Char) : Option (GreenElement × List Char) :=
  char_token '@' AT s

/-- Modelled from the spec: `colon_token` matches `:`. -/
def colon_token (s : List Char) : Option (GreenElement × List Char) :=
  char_token ':' COLON s

/-- Modelled from the spec: `l_curly2_token` matches two opening braces. -/
def l_curly2_token (s : List Char) : Option (GreenElement × List Char) :=
  match s with
  | a :: b :: r =>
    if a = lcub ∧ b = lcub then some (.token L_CURLY2 [a, b], r) else none
  | _ => none

/-- Modelled from the spec: object parsers fall back to literal text, so the
recursively parsed content of a body is embedded as a single `TEXT` token
(the claims depend on the accepted language and on leaf text, both of which
this preserves, not on the object structure of the body). -/
def standard_object_nodes (s : List Char) : List GreenElement :=
  if s = [] then [] else [.token TEXT s]

/-! ## Subscript and superscript (src/src/syntax/subscript_superscript.rs) -/

/-- The character class of `template2`'s `take_while1` (Rust
`char::is_alphanumeric` restricted to ASCII inputs). -/
def sub_sup_char (c : Char) : Bool :=
  c.isAlphanum || c = ',' || c = '\\' || c = '.'

/-- `balanced_brackets`: scan for the brace closing the group opened before
the call; `pairs` starts at 1; an inner opening brace increments it, a
closing brace decrements it unless `pairs` is 1, where the input splits. -/
def balanced_brackets : List Char → Nat → Option (List Char × List Char)
  | [], _ => none
  | c :: r, pairs =>
    if c = lcub then
      (balanced_brackets r (pairs + 1)).map fun p => (c :: p.1, p.2)
    else if c = rcub then
      if pairs ≠ 1 then
        (balanced_brackets r (pairs - 1)).map fun p => (c :: p.1, p.2)
      else some ([], c :: r)
    else (balanced_brackets r pairs).map fun p => (c :: p.1, p.2)

/-- `template0`: a single star. -/
def template0 (s : List Char) : Option (List GreenElement × List Char) :=
  match s with
  | c :: r => if c = '*' then some ([.token TEXT [c]], r) else none
  | [] => none

/-- `template1`: a braced, brace-balanced group. -/
def template1 (s : List Char) : Option (List GreenElement × List Char) :=
  match l_curly_token s with
  | none => none
  | some (l, s1) =>
    match balanced_brackets s1 1 with
    | none => none
    | some (contents, s2) =>
      match r_curly_token s2 with
      | none => none
      | some (r, s3) =>
        some ([l] ++ standard_object_nodes contents ++ [r], s3)

/-- The optional leading `+`/`-` sign consumed by `template2`. -/
def template2_sign (s : List Char) : Option Char :=
  match s with
  | c :: _ => if c = '+' ∨ c = '-' then some c else none
  | [] => none

/-- The input with the optional sign of `template2` removed. -/
def drop_sign (s : List Char) : List Char :=
  match s with
  | c :: r => if c = '+' ∨ c = '-' then r else s
  | [] => []

/-- `template2`: optional sign, then a nonempty maximal run of
alphanumeric/comma/backslash/period characters whose last character is
alphanumeric. -/
def template2 (s : List Char) : Option (List GreenElement × List Char) :=
  let s1 := drop_sign s
  let contents := s1.takeWhile sub_sup_char
  if contents = [] then none
  else if ¬ contents.getLast?.elim false Char.isAlphanum then none
  else
    let signTok : List GreenElement :=
      match template2_sign s with
      | some c => [.token TEXT [c]]
      | none => []
    some (signTok ++ [.token TEXT contents], s1.drop contents.length)

/-- `subscript_node`: `_` then, in brace-only mode, `template1` alone,
otherwise the first of `template0`, `template1`, `template2` to succeed. -/
def subscript_node (cfg : ParseConfig) (s : List Char) :
    Option (GreenElement × List Char) :=
  match underscore_token s with
  | none => none
  | some (u, s1) =>
    if cfg.use_sub_superscript.is_brace then
      match template1 s1 with
      | none => none
      | some (r, s2) => some (.node SUBSCRIPT (u :: r), s2)
    else
      match template0 s1 with
      | some (r, s2) => some (.node SUBSCRIPT (u :: r), s2)
      | none =>
        match template1 s1 with
        | some (r, s2) => some (.node SUBSCRIPT (u :: r), s2)
        | none =>
          match template2 s1 with
          | some (r, s2) => some (.node SUBSCRIPT (u :: r), s2)
          | none => none

/-- `superscript_node`: like `subscript_node` with `^`. -/
def superscript_node (cfg : ParseConfig) (s : List Char) :
    Option (GreenElement × List Char) :=
  match caret_token s with
  | none => none
  | some (u, s1) =>
    if cfg.use_sub_superscript.is_brace then
      match template1 s1 with
      | none => none
      | some (r, s2) => some (.node SUPERSCRIPT (u :: r), s2)
    else
      match template0 s1 with
      | some (r, s2) => some (.node SUPERSCRIPT (u :: r), s2)
      | none =>
        match template1 s1 with
        | some (r, s2) => some (.node SUPERSCRIPT (u :: r), s2)
        | none =>
          match template2 s1 with
          | some (r, s2) => some (.node SUPERSCRIPT (u :: r), s2)
          | none => none

/-- `verify_pre`: the preceding text is nonempty and its last byte is
neither a space nor a tab, and the configuration is not `Nil`. -/
def verify_pre (cfg : ParseConfig) (s : List Char) : Bool :=
  if cfg.use_sub_superscript.is_nil then false
  else
    match s.getLast? with
    | none => false
    | some last => !(last = ' ' || last = '\t')

/-! ## Cloze (src/src/syntax/cloze.rs) -/

/-- The TEXT scan of `cloze_node_base`: index of the first closing brace
encountered while not inside an unpaired dollar-delimited latex region;
every dollar toggles the state. -/
def cloze_scan : List Char → Bool → Option Nat
  | [], _ => none
  | c :: r, inside_latex =>
    if c = rcub ∧ ¬ inside_latex then some 0
    else
      (cloze_scan r (if c = '$' then !inside_latex else inside_latex)).map
        fun n => n + 1

/-- nom `take_until("\x7d")`: longest prefix before the first closing brace;
fails when there is none; the brace itself is not consumed. -/
def take_until_rcub : List Char → Option (List Char × List Char)
  | [] => none
  | c :: r =>
    if c = rcub then some ([], c :: r)
    else (take_until_rcub r).map fun p => (c :: p.1, p.2)

/-- The `opt(tuple((l_curly_token, take_until, r_curly_token)))` hint step of
`cloze_node_base`: on any failure nothing is consumed. -/
def cloze_opt_hint (s : List Char) : Option (List Char) × List Char :=
  match s with
  | c :: r =>
    if c = lcub then
      match take_until_rcub r with
      | some (h, _ :: r2) => (some h, r2)
      | _ => (none, s)
    else (none, s)
  | [] => (none, [])

/-- The `opt(tuple((at_token, take_until)))` id step of `cloze_node_base`:
the closing brace after the id is not consumed here. -/
def cloze_opt_id (s : List Char) : Option (List Char) × List Char :=
  match s with
  | c :: r =>
    if c = '@' then
      match take_until_rcub r with
      | some (i, r2) => (some i, r2)
      | none => (none, s)
    else (none, s)
  | [] => (none, [])

/-- The green tokens of a cloze's optional hint part. -/
def cloze_hint_toks : Option (List Char) → List GreenElement
  | some h => [.token L_CURLY [lcub], .token TEXT h, .token R_CURLY [rcub]]
  | none => []

/-- The green tokens of a cloze's optional id part. -/
def cloze_id_toks : Option (List Char) → List GreenElement
  | some i => [.token AT ['@'], .token TEXT i]
  | none => []

/-- `cloze_node_base` (src/src/syntax/cloze.rs). -/
def cloze_node_base (s : List Char) : Option (GreenElement × List Char) :=
  match l_curly2_token s with
  | none => none
  | some (l2, s1) =>
    match cloze_scan s1 false with
    | none => none
    | some 0 => none
    | some (n + 1) =>
      match r_curly_token (s1.drop (n + 1)) with
      | none => none
      | some (rc, s3) =>
        match r_curly_token (cloze_opt_id ((cloze_opt_hint s3).2)).2 with
        | none => none
        | some (rc2, s6) =>
          some (.node CLOZE
            ([l2] ++ standard_object_nodes (s1.take (n + 1)) ++ [rc]
              ++ cloze_hint_toks (cloze_opt_hint s3).1
              ++ cloze_id_toks (cloze_opt_id ((cloze_opt_hint s3).2)).1
              ++ [rc2]),
            s6)

/-- Leaf text strictly between the opening `L_CURLY2` and the first
`R_CURLY` child of a cloze node: the raw TEXT span of the cloze. -/
def cloze_text_span (n : GreenElement) : List Char :=
  leaf_chars_list
    (((children_of n).drop 1).takeWhile fun c => kind_of c ≠ R_CURLY)

/-! ## Drawer parsers (src/src/syntax/drawer.rs)

nom's `space0`/`space1` match spaces and tabs; `eol_or_eof`, `trim_line_end`
and `blank_lines` come from the absent combinator module and are modelled
from the spec (§4.1.1): a line ending is `\r\n`, `\n` or `\r`; blank lines
are whitespace-only lines emitted as `BLANK_LINE` tokens. -/

/-- Space or tab. -/
def is_space_tab (c : Char) : Bool := c = ' ' || c = '\t'

/-- Newline character. -/
def is_nl (c : Char) : Bool := c = '\n' || c = '\r'

/-- nom `space0`: leading spaces/tabs, always succeeds. -/
def space0 (s : List Char) : List Char × List Char :=
  (s.takeWhile is_space_tab, s.dropWhile is_space_tab)

/-- nom `space1`: at least one leading space/tab. -/
def space1 (s : List Char) : Option (List Char × List Char) :=
  match s with
  | c :: _ => if is_space_tab c then some (space0 s) else none
  | [] => none

/-- Modelled from the spec: `eol_or_eof` consumes a line ending or succeeds
empty at end of input. -/
def eol_or_eof (s : List Char) : Option (List Char × List Char) :=
  match s with
  | [] => some ([], [])
  | '\r' :: '\n' :: r => some (['\r', '\n'], r)
  | '\n' :: r => some (['\n'], r)
  | '\r' :: r => some (['\r'], r)
  | _ => none

/-- A `WHITESPACE` token when the text is nonempty (`NodeBuilder::ws`). -/
def push_ws (t : List Char) : List GreenElement :=
  if t = [] then [] else [.token WHITESPACE t]

/-- A `NEW_LINE` token when the text is nonempty (`NodeBuilder::nl`). -/
def push_nl (t : List Char) : List GreenElement :=
  if t = [] then [] else [.token NEW_LINE t]

/-- Modelled from the spec: `trim_line_end` splits the current line into its
value (without trailing spaces/tabs), the trailing whitespace, and the line
ending, leaving the rest of the input. -/
def trim_line_end (s : List Char) :
    (List Char × List Char × List Char) × List Char :=
  let line := s.takeWhile fun c => !is_nl c
  let rest := s.drop line.length
  let (nl, rest2) :=
    match eol_or_eof rest with
    | some p => p
    | none => ([], rest)
  let value := (line.reverse.dropWhile is_space_tab).reverse
  let ws3 := (line.reverse.takeWhile is_space_tab).reverse
  ((value, ws3, nl), rest2)

/-- One raw line including its ending, plus the rest. -/
def line_split (s : List Char) : List Char × List Char :=
  match eol_or_eof (s.drop ((s.takeWhile fun c => !is_nl c)).length) with
  | some (nl, r) => ((s.takeWhile fun c => !is_nl c) ++ nl, r)
  | none =>
    (s.takeWhile fun c => !is_nl c,
      s.drop ((s.takeWhile fun c => !is_nl c)).length)

/-- Modelled from the spec (§4.1.1): `blank_lines` consumes zero or more
whitespace-only lines as `BLANK_LINE` tokens (fuel recursion). -/
def blank_lines_f : Nat → List Char → List GreenElement × List Char
  | 0, s => ([], s)
  | fuel + 1, s =>
    if s = [] then ([], s)
    else if (line_split s).1.all fun c => is_space_tab c || is_nl c then
      (.token BLANK_LINE (line_split s).1 :: (blank_lines_f fuel (line_split s).2).1,
        (blank_lines_f fuel (line_split s).2).2)
    else ([], s)

/-- `blank_lines` with sufficient fuel. -/
def blank_lines (s : List Char) : List GreenElement × List Char :=
  blank_lines_f (s.length + 1) s

/-- The name characters of `drawer_begin_node`'s `take_while1`
(`is_ascii_alphabetic`, `-`, `_`). -/
def drawer_name_char (c : Char) : Bool := c.isAlpha || c = '-' || c = '_'

/-- `drawer_begin_node` (src/src/syntax/drawer.rs): returns the
`DRAWER_BEGIN` node together with the drawer name. -/
def drawer_begin_node (s : List Char) :
    Option ((GreenElement × List Char) × List Char) :=
  let (ws, s1) := space0 s
  match colon_token s1 with
  | none => none
  | some (c1, s2) =>
    let name := s2.takeWhile drawer_name_char
    if name = [] then none
    else
      let s3 := s2.drop name.length
      match colon_token s3 with
      | none => none
      | some (c2, s4) =>
        let (ws2, s5) := space0 s4
        match eol_or_eof s5 with
        | none => none
        | some (nl, s6) =>
          some ((.node DRAWER_BEGIN
            (push_ws ws ++ [c1, .token TEXT name, c2] ++ push_ws ws2 ++ push_nl nl),
            name), s6)

/-- nom `tag_no_case("END")`. -/
def tag_no_case_end (s : List Char) : Option (List Char × List Char) :=
  match s with
  | a :: b :: c :: r =>
    if ci_eq a 'e' && ci_eq b 'n' && ci_eq c 'd' then some ([a, b, c], r)
    else none
  | _ => none

/-- `drawer_end_node` (src/src/syntax/drawer.rs). -/
def drawer_end_node (s : List Char) : Option (GreenElement × List Char) :=
  let (ws, s1) := space0 s
  match colon_token s1 with
  | none => none
  | some (c1, s2) =>
    match tag_no_case_end s2 with
    | none => none
    | some (endTxt, s3) =>
      match colon_token s3 with
      | none => none
      | some (c2, s4) =>
        let (ws2, s5) := space0 s4
        match eol_or_eof s5 with
        | none => none
        | some (nl, s6) =>
          some (.node DRAWER_END
            (push_ws ws ++ [c1, .token TEXT endTxt, c2] ++ push_ws ws2 ++ push_nl nl),
            s6)

/-- The non-whitespace character class of `node_property_node`'s
`take_while1`. -/
def non_ws_char (c : Char) : Bool :=
  !(c = ' ' || c = '\t' || c = '\n' || c = '\r')

/-- `node_property_node` (src/src/syntax/drawer.rs): a property line
`:NAME: VALUE`; the maximal non-whitespace run after the first colon must
end with a colon (the key's closing colon), and at least one space or tab
must follow it. -/
def node_property_node (s : List Char) : Option (GreenElement × List Char) :=
  let (ws1, s1) := space0 s
  match colon_token s1 with
  | none => none
  | some (colon1, s2) =>
    let w := s2.takeWhile non_ws_char
    if w = [] then none
    else if w.getLast? ≠ some ':' then none
    else
      let name := w.dropLast
      let s3 := s2.drop w.length
      match space1 s3 with
      | none => none
      | some (ws2, s4) =>
        let ((value, ws3, nl), s5) := trim_line_end s4
        let nameToks : List GreenElement :=
          if name.getLast? = some '+' then
            [.token TEXT name.dropLast, .token PLUS ['+']]
          else [.token TEXT name]
        some (.node NODE_PROPERTY
          (push_ws ws1 ++ [colon1] ++ nameToks ++ [.token COLON [':']]
            ++ push_ws ws2 ++ [.token TEXT value] ++ push_ws ws3 ++ push_nl nl),
          s5)

/-- nom `iterator(input, node_property_node)`: parse node properties until
the first failure (fuel recursion; each success consumes input). -/
def many_node_props_f : Nat → List Char → List GreenElement × List Char
  | 0, s => ([], s)
  | fuel + 1, s =>
    match node_property_node s with
    | some (p, rest) =>
      (p :: (many_node_props_f fuel rest).1, (many_node_props_f fuel rest).2)
    | none => ([], s)

/-- `property_drawer_node_base` (src/src/syntax/drawer.rs): a
case-insensitive `:PROPERTIES:` begin line, node properties until failure,
an end line, trailing blank lines. -/
def property_drawer_node_base (s : List Char) :
    Option (GreenElement × List Char) :=
  match drawer_begin_node s with
  | none => none
  | some ((begin_, name), s1) =>
    if ¬ ci_eq_list name (chars "properties") then none
    else
      let (props, s2) := many_node_props_f (s1.length + 1) s1
      match drawer_end_node s2 with
      | none => none
      | some (end_, s3) =>
        let (post, s4) := blank_lines s3
        some (.node PROPERTY_DRAWER (begin_ :: (props ++ [end_] ++ post)), s4)

/-- `property_drawer_node`: the `lossless_parser!` wrapper only asserts the
consumed-length invariant, so it is the base parser. -/
def property_drawer_node (s : List Char) : Option (GreenElement × List Char) :=
  property_drawer_node_base s

/-! ## Document and headline parsers

Modelled from the spec: `document_node` (src/src/syntax/document.rs) and
`headline_node` (src/src/syntax/headline.rs) are absent from src/.  Per
§4.1.2/§4.1.4 a headline is one or more stars at column 0 followed by a
space, its title line, then the section (the contiguous non-headline lines)
and then its sub-headlines, which are exactly the following headlines whose
star count is strictly greater; the document is an optional leading section
followed by the top-level headlines; parsing is total, unmatched content
falling back to literal text (§4.1.6).  The contents of title lines and
sections are embedded as plain `TEXT` tokens: the claims that use this
parser depend on headline nesting, token boundaries at line endings, and
leaf text, all of which this preserves. -/

/-- Number of leading stars. -/
def leading_stars (s : List Char) : Nat :=
  (s.takeWhile fun c => c = '*').length

/-- Modelled from the spec (§4.1.2): a headline line starts with one or
more stars followed by a space. -/
def is_headline_start (s : List Char) : Bool :=
  let l := leading_stars s
  0 < l && s.get? l = some ' '

/-- Modelled from the spec (§4.1.4): the section is the run of lines up to
the next headline start (fuel recursion over lines). -/
def section_split_f : Nat → List Char → List Char × List Char
  | 0, s => ([], s)
  | fuel + 1, s =>
    if s = [] then ([], [])
    else if is_headline_start s then ([], s)
    else
      ((line_split s).1 ++ (section_split_f fuel (line_split s).2).1,
        (section_split_f fuel (line_split s).2).2)

/-- `section_split_f` with sufficient fuel. -/
def section_split (s : List Char) : List Char × List Char :=
  section_split_f (s.length + 1) s

/-- The title-line content of a headline candidate: the characters after
the stars, up to the line ending. -/
def hn_content (s : List Char) : List Char :=
  (s.drop (leading_stars s)).takeWhile fun c => !is_nl c

/-- What follows a headline candidate's title-line content. -/
def hn_after_content (s : List Char) : List Char :=
  (s.drop (leading_stars s)).drop (hn_content s).length

/-- The title line's ending characters (empty at end of input). -/
def hn_nl (s : List Char) : List Char :=
  match eol_or_eof (hn_after_content s) with
  | some p => p.1
  | none => []

/-- The input after the headline candidate's title line. -/
def hn_rest1 (s : List Char) : List Char :=
  match eol_or_eof (hn_after_content s) with
  | some p => p.2
  | none => hn_after_content s

/-- The headline's section text. -/
def hn_sec (s : List Char) : List Char := (section_split (hn_rest1 s)).1

/-- The input after the headline's section. -/
def hn_rest2 (s : List Char) : List Char := (section_split (hn_rest1 s)).2

mutual
/-- Modelled from the spec (§4.1.4): `headline_node`, parsing
`STARS SPACE TITLE-LINE EOL SECTION SUB_HEADLINE*` where sub-headlines have
strictly more stars. -/
def headline_node_f : Nat → List Char → Option (GreenElement × List Char)
  | 0, _ => none
  | fuel + 1, s =>
    if leading_stars s = 0 then none
    else if (s.drop (leading_stars s)).head? ≠ some ' ' then none
    else
      some (.node HEADLINE
        ([.token STAR (List.replicate (leading_stars s) '*'),
          .token TEXT (hn_content s)]
          ++ push_nl (hn_nl s)
          ++ (if hn_sec s = [] then []
              else [.node SECTION [.token TEXT (hn_sec s)]])
          ++ (sub_headlines_f fuel (leading_stars s) (hn_rest2 s)).1),
        (sub_headlines_f fuel (leading_stars s) (hn_rest2 s)).2)

/-- Modelled from the spec (§4.1.4): the sub-headline loop, parsing
headlines while the next line is a headline start of level strictly greater
than `l`. -/
def sub_headlines_f : Nat → Nat → List Char → List GreenElement × List Char
  | 0, _, s => ([], s)
  | fuel + 1, l, s =>
    if is_headline_start s && l < leading_stars s then
      match headline_node_f fuel s with
      | some (h, rest) =>
        (h :: (sub_headlines_f fuel l rest).1, (sub_headlines_f fuel l rest).2)
      | none => ([], s)
    else ([], s)
end

/-- `headline_node` with sufficient fuel. -/
def headline_node (s : List Char) : Option (GreenElement × List Char) :=
  headline_node_f (s.length + 1) s

/-- Modelled from the spec (§4.1.2, §4.1.6): the document body after the
leading section: headlines, with a literal-text line fallback keeping the
parser total. -/
def doc_body_f : Nat → List Char → List GreenElement
  | 0, s => if s = [] then [] else [.token TEXT s]
  | fuel + 1, s =>
    if s = [] then []
    else
      match headline_node s with
      | some (h, rest) => h :: doc_body_f fuel rest
      | none =>
        .token TEXT (line_split s).1 :: doc_body_f fuel (line_split s).2

/-- Modelled from the spec (§4.1.2, §4.1.4, §4.1.6): `document_node`
(src/src/syntax/document.rs): an optional leading `SECTION` followed by the
top-level headlines; total on any input. -/
def document_node (cfg : ParseConfig) (s : List Char) : GreenElement :=
  .node DOCUMENT
    ((if (section_split s).1 = [] then []
      else [.node SECTION [.token TEXT (section_split s).1]])
      ++ doc_body_f ((section_split s).2.length + 1) (section_split s).2)

/-! ## Org (src/src/org.rs, src/src/config.rs) -/

/-- `Org`: the green root plus the configuration it was parsed with. -/
structure Org where
  green : GreenElement
  config : ParseConfig

/-- `ParseConfig::parse` (src/src/config.rs). -/
def ParseConfig.parse (cfg : ParseConfig) (input : List Char) : Org :=
  { green := document_node cfg input, config := cfg }

/-- `Org::parse` (src/src/org.rs): parse with the default config. -/
def Org.parse (input : List Char) : Org :=
  ParseConfig.default.parse input

/-- `Org::to_org` (src/src/org.rs): `self.green.to_string()`, the leaf text
of the green root. -/
def Org.to_org (o : Org) : List Char :=
  leaf_chars o.green

/-! ## Red-tree utilities (rowan semantics)

A red node is a green element paired with its absolute start offset;
offsets of children are computed from the leaf text lengths. -/

/-- Children paired with their absolute start offsets. -/
def offset_children : Nat → List GreenElement → List (Nat × GreenElement)
  | _, [] => []
  | o, c :: cs => (o, c) :: offset_children (o + g_len c) cs

/-- Children paired with their index and absolute start offset. -/
def indexed_offset_children :
    Nat → Nat → List GreenElement → List (Nat × Nat × GreenElement)
  | _, _, [] => []
  | i, o, c :: cs => (i, o, c) :: indexed_offset_children (i + 1) (o + g_len c) cs

mutual
/-- All nodes of a subtree in depth-first pre-order, paired with their
absolute start offsets (tokens are not listed; `SyntaxNode::children`
yields nodes only). -/
def nodes_preorder : Nat → GreenElement → List (Nat × GreenElement)
  | _, .token _ _ => []
  | o, .node k cs => (o, .node k cs) :: nodes_preorder_list o cs

/-- Pre-order nodes of a child list starting at the given offset. -/
def nodes_preorder_list : Nat → List GreenElement → List (Nat × GreenElement)
  | _, [] => []
  | o, c :: cs => nodes_preorder o c ++ nodes_preorder_list (o + g_len c) cs
end

mutual
/-- The recursion of `Org::node_at_offset` (src/src/org.rs): fail when the
offset is outside the node's range, cast when the kind matches, otherwise
try the children in order. -/
def node_at_offset_aux (k : SyntaxKind) (off : Nat) :
    Nat → GreenElement → Option (Nat × GreenElement)
  | _, .token _ _ => none
  | o, .node k0 cs =>
    if off < o ∨ o + g_len (.node k0 cs) ≤ off then none
    else if k0 = k then some (o, .node k0 cs)
    else node_at_offset_list k off o cs

/-- `find_map` of the recursion over the children. -/
def node_at_offset_list (k : SyntaxKind) (off : Nat) :
    Nat → List GreenElement → Option (Nat × GreenElement)
  | _, [] => none
  | o, c :: cs =>
    match node_at_offset_aux k off o c with
    | some r => some r
    | none => node_at_offset_list k off (o + g_len c) cs
end

/-- `Org::node_at_offset::<T>` for a typed kind `k`: the result is the
found node with its absolute start offset. -/
def node_at_offset (k : SyntaxKind) (g : GreenElement) (off : Nat) :
    Option (Nat × GreenElement) :=
  node_at_offset_aux k off 0 g

/-- Ranges of all nodes of kind `k` whose range contains the offset
(half-open, rowan `TextRange::contains`). -/
def ranges_of_kind_containing (k : SyntaxKind) (g : GreenElement) (off : Nat) :
    List (Nat × Nat) :=
  ((nodes_preorder 0 g).filter fun p =>
      kind_of p.2 = k && decide (p.1 ≤ off) && decide (off < p.1 + g_len p.2)).map
    fun p => (p.1, p.1 + g_len p.2)

mutual
/-- All leaf tokens of a subtree with their absolute start and end offsets
and their text. -/
def tokens_with_offsets : Nat → GreenElement → List (Nat × Nat × List Char)
  | o, .token _ t => [(o, o + t.length, t)]
  | o, .node _ cs => tokens_with_offsets_list o cs

/-- Tokens of a child list starting at the given offset. -/
def tokens_with_offsets_list : Nat → List GreenElement → List (Nat × Nat × List Char)
  | _, [] => []
  | o, c :: cs => tokens_with_offsets o c ++ tokens_with_offsets_list (o + g_len c) cs
end

/-- `follows_newline` (src/src/replace.rs) over the tokens of the headline
subtree rooted at absolute offset `o`: `rowan::TokenAtOffset` yields the
token strictly containing the offset (`Single`), else the pair of tokens
ending and starting there (`Between`, where the left one is inspected),
else the single neighbour; the inspected text must end with a newline. -/
def follows_newline (o : Nat) (g : GreenElement) (off : Nat) : Bool :=
  let toks := tokens_with_offsets o g
  match toks.find? fun t => decide (t.1 < off) && decide (off < t.2.1) with
  | some t =>
    let suf := t.2.2.drop (off - t.1)
    suf.getLast? = some '\n' || suf.getLast? = some '\r'
  | none =>
    match toks.find? fun t => t.2.1 = off, toks.find? fun t => t.1 = off with
    | some l, some _ => l.2.2.getLast? = some '\n' || l.2.2.getLast? = some '\r'
    | some l, none =>
      let suf := l.2.2.drop (off - l.1)
      suf.getLast? = some '\n' || suf.getLast? = some '\r'
    | none, some r =>
      r.2.2.getLast? = some '\n' || r.2.2.getLast? = some '\r'
    | none, none => false

/-- Subtree at a path of child indices. -/
def node_at_path : GreenElement → List Nat → Option GreenElement
  | g, [] => some g
  | .token _ _, _ :: _ => none
  | .node _ cs, i :: p =>
    match cs.get? i with
    | some c => node_at_path c p
    | none => none

/-- Absolute start offset of the subtree at a path. -/
def offset_at_path : Nat → GreenElement → List Nat → Option Nat
  | o, _, [] => some o
  | _, .token _ _, _ :: _ => none
  | o, .node _ cs, i :: p =>
    match (offset_children o cs).get? i with
    | some (co, c) => offset_at_path co c p
    | none => none

mutual
/-- `SyntaxNode::replace_with`: rebuild the root with the subtree at the
path replaced (out-of-range paths leave the tree unchanged). -/
def splice_at : GreenElement → List Nat → GreenElement → GreenElement
  | _, [], n => n
  | .token k t, _ :: _, _ => .token k t
  | .node k cs, i :: p, n => .node k (splice_list cs i p n)

/-- Replace within the `i`-th child of a child list. -/
def splice_list : List GreenElement → Nat → List Nat → GreenElement → List GreenElement
  | [], _, _, _ => []
  | c :: cs, 0, p, n => splice_at c p n :: cs
  | c :: cs, i + 1, p, n => c :: splice_list cs i p n
end

/-! ## Incremental replace (src/src/replace.rs) -/

/-- `Headline::level` (src/src/ast/headline.rs is absent from src/;
modelled from the spec §4.3: the count of leading stars). -/
def headline_level (g : GreenElement) : Nat :=
  leading_stars (leaf_chars g)

/-- `RangeShape` (src/src/replace.rs); the headline is identified by its
path from the root. -/
inductive RangeShapeT where
  | ExactHeadline (path : List Nat) (level : Nat)
  | InsideHeadline (path : List Nat) (level : Nat)
  | Other
  deriving DecidableEq, Repr

/-- The loop of `RangeShape::new`: among the headline children of the
current node, the first whose range equals the edit range gives
`ExactHeadline`; the first whose body (range shifted past the stars and the
following space) contains the edit range is descended into, defaulting to
`InsideHeadline`. -/
def range_shape_f : Nat → List Nat → Nat → GreenElement → Nat × Nat →
    Option RangeShapeT
  | 0, _, _, _, _ => none
  | fuel + 1, path, o, g, r =>
    match g with
    | .token _ _ => none
    | .node _ cs =>
      (indexed_offset_children 0 o cs).findSome? fun t =>
        match t with
        | (i, co, c) =>
          if c.is_node && kind_of c = HEADLINE then
            let lvl := headline_level c
            let ce := co + g_len c
            if (co, ce) = r then some (.ExactHeadline (path ++ [i]) lvl)
            else if co + lvl + 1 ≤ r.1 ∧ r.2 ≤ ce then
              some ((range_shape_f fuel (path ++ [i]) co c r).getD
                (.InsideHeadline (path ++ [i]) lvl))
            else none
          else none

/-- `RangeShape::new` with sufficient fuel (the descent depth is bounded by
the tree size). -/
def range_shape (g : GreenElement) (r : Nat × Nat) : RangeShapeT :=
  (range_shape_f (gsize g) [] 0 g r).getD .Other

/-- `ReplaceWithShape` (src/src/replace.rs). -/
inductive ReplaceWithShapeT where
  | IncludeHeadline (level : Nat)
  | ExactHeadline (level : Nat)
  | Other
  deriving DecidableEq, Repr

/-- Modelled from the spec (§4.1.1): `line_starts_iter` enumerates offset 0
and every position immediately following a newline character. -/
def line_starts_iter (s : List Char) : List Nat :=
  0 :: ((List.range s.length).filterMap fun i =>
    match s.get? i with
    | some c => if is_nl c then some (i + 1) else none
    | none => none)

/-- The fold step of `ReplaceWithShape::new` for one line start. -/
def replace_with_shape_step (s : List Char) (result : ReplaceWithShapeT)
    (start : Nat) : ReplaceWithShapeT :=
  let t := s.drop start
  let level := leading_stars t
  if level = 0 then result
  else if t.get? level ≠ some ' ' then result
  else
    match result with
    | .IncludeHeadline l =>
      if level < l then .IncludeHeadline level else result
    | .ExactHeadline l =>
      if level ≤ l then .IncludeHeadline level else result
    | .Other =>
      if start = 0 then .ExactHeadline level else .IncludeHeadline level

/-- `ReplaceWithShape::new` (src/src/replace.rs). -/
def replace_with_shape (s : List Char) : ReplaceWithShapeT :=
  (line_starts_iter s).foldl (replace_with_shape_step s) .Other

/-- `Org::full_parse` (src/src/replace.rs): splice the replacement into the
full text and reparse the document. -/
def Org.full_parse (o : Org) (r : Nat × Nat) (replace_with : List Char) : Org :=
  if (0, g_len o.green) = r then
    { o with green := document_node o.config replace_with }
  else
    let text := leaf_chars o.green
    let text := text.take r.1 ++ replace_with ++ text.drop r.2
    { o with green := document_node o.config text }

/-- `Org::replace_headline` (src/src/replace.rs): reparse the headline's
text with the replacement spliced in, and substitute the resulting green
subtree; `none` models the `unwrap` panic when the headline parser fails.
Note the parser's unconsumed rest is discarded (`.1` in the source). -/
def Org.replace_headline (o : Org) (path : List Nat) (r : Nat × Nat)
    (replace_with : List Char) : Option Org :=
  match node_at_path o.green path, offset_at_path 0 o.green path with
  | some hg, some hoff =>
    if (hoff, hoff + g_len hg) = r then
      match headline_node replace_with with
      | none => none
      | some (n, _) => some { o with green := splice_at o.green path n }
    else
      let text := leaf_chars hg
      let text := text.take (r.1 - hoff) ++ replace_with ++ text.drop (r.2 - hoff)
      match headline_node text with
      | none => none
      | some (n, _) => some { o with green := splice_at o.green path n }
  | _, _ => none

/-- `Org::replace_range` (src/src/replace.rs): classify the range and the
replacement, reparse only the enclosing headline in the headline-local
cases, otherwise reparse the whole document.  `none` models a panic. -/
def Org.replace_range (o : Org) (r : Nat × Nat) (replace_with : List Char) :
    Option Org :=
  match range_shape o.green r, replace_with_shape replace_with with
  | .ExactHeadline path level, .IncludeHeadline new_level =>
    if level < new_level then o.replace_headline path r replace_with
    else some (o.full_parse r replace_with)
  | .InsideHeadline path level, .IncludeHeadline new_level =>
    if level < new_level then o.replace_headline path r replace_with
    else some (o.full_parse r replace_with)
  | .ExactHeadline path level, .ExactHeadline new_level =>
    match node_at_path o.green path, offset_at_path 0 o.green path with
    | some hg, some hoff =>
      if level ≤ new_level ∧
          (hoff + g_len hg = g_len o.green ∨
            replace_with.getLast? = some '\n' ∨ replace_with.getLast? = some '\r') then
        o.replace_headline path r replace_with
      else some (o.full_parse r replace_with)
    | _, _ => none
  | .InsideHeadline path level, .ExactHeadline new_level =>
    match node_at_path o.green path, offset_at_path 0 o.green path with
    | some hg, some hoff =>
      if level ≤ new_level ∧ follows_newline hoff hg r.1 then
        o.replace_headline path r replace_with
      else some (o.full_parse r replace_with)
    | _, _ => none
  | _, _ => some (o.full_parse r replace_with)

/-! ## Statement-level definitions used by the claims -/

/-- Space-joined concatenation of a list of strings (the spec's wording for
`Document::title`): the pieces separated by single spaces. -/
def space_join : List (List Char) → List Char
  | [] => []
  | w :: ws => ws.foldl (fun a v => a ++ ' ' :: v) w

/-- A document whose zeroth section has two TITLE keywords, the first with
an empty value (the keyword parser emits an empty value `TEXT` token for
`#+TITLE:`, per the doctest of `Keyword::value` in src/src/ast/keyword.rs). -/
def title_example_doc : GreenElement :=
  .node DOCUMENT [.node SECTION
    [.node KEYWORD [.token TEXT (chars "TITLE"), .token COLON [':'],
       .token TEXT []],
     .node KEYWORD [.token TEXT (chars "TITLE"), .token COLON [':'],
       .token TEXT (chars " world")]]]

/-- A link node with an image path and no description, for witnesses. -/
def link_example : GreenElement :=
  .node LINK [.token LINK_PATH (chars "file:a.png")]

/-- The latex state after scanning a prefix: each dollar toggles it. -/
def latex_toggles (b : Bool) (s : List Char) : Bool :=
  s.foldl (fun st c => if c = '$' then !st else st) b

/-- The TEXT of a cloze: nonempty, with every closing brace inside an
unpaired dollar-delimited latex region, and an even number of dollars (so
the brace that closes the TEXT is met outside latex). -/
def ClozeText (t : List Char) : Prop :=
  t ≠ [] ∧ latex_toggles false t = false ∧
  ∀ i, i < t.length → t.get? i = some rcub → latex_toggles false (t.take i) = true

/-- The optional hint part of a cloze's surface syntax. -/
def hint_part : Option (List Char) → List Char
  | none => []
  | some h => lcub :: (h ++ [rcub])

/-- The optional id part of a cloze's surface syntax. -/
def id_part : Option (List Char) → List Char
  | none => []
  | some i => '@' :: i

/-- The four accepted cloze forms, as one shape with optional hint and id:
TEXT then optionally a braced HINT, then optionally an at-sign ID, then the
final closing brace; hint and id contain no closing brace. -/
def ClozeShape (s : List Char) : Prop :=
  ∃ text hint id rest,
    s = lcub :: lcub :: (text ++ rcub :: (hint_part hint ++ id_part id ++ rcub :: rest)) ∧
    ClozeText text ∧
    (∀ h, hint = some h → rcub ∉ h) ∧
    (∀ i, id = some i → rcub ∉ i)

/-- The cloze example `\x7b\x7b$\frac\x7ba\x7d\x7bb\x7d$\x7d\x7bfractions\x7d\x7d`
from the source's tests. -/
def cloze_frac_input : List Char :=
  [lcub, lcub, '$', '\\'] ++ chars "frac" ++ [lcub, 'a', rcub, lcub, 'b', rcub, '$', rcub, lcub]
    ++ chars "fractions" ++ [rcub, rcub]

/-- A brace-balanced body at nesting debt `p`: no prefix closes more than
`p` plus its own opens, and the whole closes exactly `p` plus its opens.
At `p = 0` this is the usual balanced bracket condition. -/
def BalancedBody (p : Nat) (inner : List Char) : Prop :=
  (∀ k, ((inner.take k).count rcub) ≤ p + (inner.take k).count lcub) ∧
  inner.count rcub = p + inner.count lcub


/-! ## Helper lemmas -/

theorem leaf_chars_list_append (xs ys : List GreenElement) :
    leaf_chars_list (xs ++ ys) = leaf_chars_list xs ++ leaf_chars_list ys := by
  induction xs with
  | nil => simp [leaf_chars_list]
  | cons c cs ih => simp [leaf_chars_list, ih]

theorem find_map_of_pred_comp {α : Type} (f : α → α) (P : α → Bool) (m : List α)
    (hf : ∀ q, P (f q) = P q) :
    (m.map f).find? P = (m.find? P).map f := by
  induction m with
  | nil => rfl
  | cons q m' ih =>
    by_cases hq : P q = true
    · rw [List.map_cons, List.find?_cons_of_pos _ (by rw [hf]; exact hq),
        List.find?_cons_of_pos _ hq, Option.map_some']
    · rw [List.map_cons, List.find?_cons_of_neg _ (by rw [hf]; simpa using hq),
        List.find?_cons_of_neg _ (by simpa using hq), ih]

theorem find_mem_and_pred {α : Type} (P : α → Bool) (m : List α) (q : α)
    (h : m.find? P = some q) : P q = true :=
  List.find?_some h

theorem hm_get_insert (m : List (List Char × List Char))
    (p : List Char × List Char) (k : List Char) :
    hm_get (hm_insert m p) k = if p.1 = k then some p.2 else hm_get m k := by
  unfold hm_insert
  by_cases h : m.any (fun q => q.1 = p.1) = true
  · rw [if_pos h]
    unfold hm_get
    rw [find_map_of_pred_comp _ _ _ (fun q => by
      show decide ((if q.1 = p.1 then (q.1, p.2) else q).1 = k) = decide (q.1 = k)
      split <;> rfl)]
    by_cases hp : p.1 = k
    · rw [if_pos hp]
      have hsome : ∃ x ∈ m, decide (x.1 = k) = true := by
        simp only [List.any_eq_true] at h
        obtain ⟨x, hx, hxk⟩ := h
        exact ⟨x, hx, by simp at hxk ⊢; rw [hxk, hp]⟩
      obtain ⟨q, hq⟩ := Option.isSome_iff_exists.mp
        (List.find?_isSome.mpr hsome)
      rw [hq]
      have hqk : q.1 = k := by simpa using find_mem_and_pred _ m q hq
      simp [hqk.trans hp.symm]
    · rw [if_neg hp]
      cases hfind : m.find? (fun q => decide (q.1 = k)) with
      | none => simp
      | some q =>
        have hqk : q.1 = k := by simpa using find_mem_and_pred _ m q hfind
        have hqp : ¬ q.1 = p.1 := fun hcon => hp (hcon.symm.trans hqk)
        simp [hqp]
  · rw [if_neg h]
    unfold hm_get
    rw [List.find?_append]
    by_cases hp : p.1 = k
    · have hnone : m.find? (fun q => decide (q.1 = k)) = none := by
        rw [List.find?_eq_none]
        intro x hx hxk
        have hxp : x.1 = p.1 := by
          have : x.1 = k := by simpa using hxk
          rw [this, hp]
        exact h (List.any_eq_true.mpr ⟨x, hx, by simp [hxp]⟩)
      rw [hnone]
      simp [hp]
    · cases hfind : m.find? (fun q => decide (q.1 = k)) with
      | none => simp [hfind, hp]
      | some q => simp [hfind, hp]

theorem hm_fold (ps : List (List Char × List Char))
    (m : List (List Char × List Char)) (k : List Char) :
    hm_get (ps.foldl hm_insert m) k =
      ((ps.reverse.find? fun p => p.1 = k).map fun p => p.2).or (hm_get m k) := by
  induction ps generalizing m with
  | nil => simp
  | cons p ps' ih =>
    rw [List.foldl_cons, ih, List.reverse_cons, List.find?_append]
    cases hfind : ps'.reverse.find? (fun q => decide (q.1 = k)) with
    | some q => simp
    | none =>
      rw [hm_get_insert]
      by_cases hp : p.1 = k
      · simp [hp]
      · simp [hp]

theorem title_step_some (s : List Char) (v : List Char) (h : s ≠ []) :
    title_step (some s) v = some (s ++ ' ' :: trim_chars v) := by
  simp only [title_step, Option.getD_some, if_pos h]
  rw [List.append_assoc]
  rfl

theorem title_step_none (v : List Char) :
    title_step none v = some (trim_chars v) := by
  simp [title_step]

theorem title_step_some_nil (v : List Char) :
    title_step (some []) v = title_step none v := rfl

theorem title_fold_nonempty (vs : List (List Char)) (s : List Char) (h : s ≠ []) :
    vs.foldl title_step (some s) =
      some (vs.foldl (fun a v => a ++ ' ' :: trim_chars v) s) := by
  induction vs generalizing s with
  | nil => rfl
  | cons v vs' ih =>
    rw [List.foldl_cons, title_step_some s v h, List.foldl_cons,
      ih (s ++ ' ' :: trim_chars v) (by simp)]

theorem title_fold_none (vs : List (List Char)) :
    vs.foldl title_step none =
      if vs = [] then none
      else some (space_join ((vs.map trim_chars).dropWhile List.isEmpty)) := by
  induction vs with
  | nil => rfl
  | cons v vs' ih =>
    rw [if_neg (by simp)]
    rw [List.foldl_cons, title_step_none]
    by_cases ht : trim_chars v = []
    · rw [ht]
      cases hvs : vs' with
      | nil => simp [space_join, ht]
      | cons w ws =>
        have hstep : List.foldl title_step (some []) (w :: ws) =
            List.foldl title_step none (w :: ws) := by
          rw [List.foldl_cons, List.foldl_cons, title_step_some_nil]
        rw [hstep, ← hvs, ih, if_neg (by rw [hvs]; simp)]
        rw [List.map_cons, ht, List.dropWhile_cons_of_pos (by simp)]
    · rw [title_fold_nonempty vs' (trim_chars v) ht]
      rw [List.map_cons, List.dropWhile_cons_of_neg (by simpa using ht)]
      rw [space_join, List.foldl_map]

/-! ## Claim theorems -/

/-- Claim C5: for every Link node (one carrying a `LINK_PATH` token, which
every parsed link has), `is_image` returns true iff the path ends with one
of the fourteen registered image suffixes and the link has no description. -/
theorem c5_link_is_image (n : GreenElement) (p : List Char)
    (h : Link.path n = some p) :
    Link.is_image n = some true ↔
      ((IMAGE_SUFFIX.any fun e => e.isSuffixOf p) = true ∧
        Link.has_description n = false) := by
  simp only [Link.is_image, h, Option.map_some', Option.some.injEq,
    Bool.and_eq_true, Bool.not_eq_true']

/-- Witness for C5: the link `[[file:a.png]]`, whose path has the `.png`
suffix and which has no description, is an image. -/
theorem c5_link_is_image_witness :
    Link.path link_example = some (chars "file:a.png") ∧
    (Link.is_image link_example = some true ↔
      ((IMAGE_SUFFIX.any fun e => e.isSuffixOf (chars "file:a.png")) = true ∧
        Link.has_description link_example = false)) :=
  ⟨by decide, c5_link_is_image link_example (chars "file:a.png") (by decide)⟩

/-- Claim C6 (corrected): `Document::title` space-joins the trimmed values
of the top-level TITLE keywords, except that no separator is emitted while
the accumulated title is still empty: leading empty TITLE values contribute
no leading space.  It is `none` exactly when no TITLE value exists. -/
theorem c6_document_title (doc : GreenElement) :
    Document.title doc =
      if Document.title_values doc = [] then none
      else some (space_join
        (((Document.title_values doc).map trim_chars).dropWhile List.isEmpty)) := by
  unfold Document.title
  exact title_fold_none (Document.title_values doc)

/-- Witness for C6: `#+TITLE: hello` and `#+TITLE: world` give
`hello world` (the spec's own example). -/
theorem c6_document_title_witness :
    Document.title (.node DOCUMENT [.node SECTION
      [.node KEYWORD [.token TEXT (chars "TITLE"), .token COLON [':'],
         .token TEXT (chars " hello")],
       .node KEYWORD [.token TEXT (chars "TITLE"), .token COLON [':'],
         .token TEXT (chars " world")]]]) = some (chars "hello world") := by
  rw [c6_document_title]
  decide

/-- Counterexample for C6: with a first TITLE keyword whose value is empty
(`#+TITLE:`) and a second with value `world`, `title()` returns `world`,
while the space-joined concatenation of the trimmed values is ` world`:
the claim's space-join of every trimmed value does not hold. -/
theorem c6_title_counterexample :
    Document.title title_example_doc = some (chars "world") ∧
    space_join ((Document.title_values title_example_doc).map trim_chars) =
      chars " world" ∧
    (some (chars "world") : Option (List Char)) ≠ some (chars " world") := by
  refine ⟨by decide, by decide, by decide⟩

/-- Claim C7: `PropertyDrawer::get` returns the value of the first node
property (in document order) whose key text equals the requested key, while
`to_hash_map` (keyed by token text only) maps each key to the value of the
last property bearing it; on the drawer `:ID: X` then `:ID: Y`, `get`
yields `X` and the hash map yields `Y`. -/
theorem c7_property_drawer_get_hash :
    (∀ (d : GreenElement) (key : List Char),
      PropertyDrawer.get d key =
        ((PropertyDrawer.iter d).find? fun p => p.1 = key).map (fun p => p.2) ∧
      hm_get (PropertyDrawer.to_hash_map d) key =
        ((PropertyDrawer.iter d).reverse.find? fun p => p.1 = key).map
          (fun p => p.2)) ∧
    ((property_drawer_node (chars ":PROPERTIES:\n:ID: X\n:ID: Y\n:END:")).map
        fun p => (PropertyDrawer.get p.1 (chars "ID"),
          hm_get (PropertyDrawer.to_hash_map p.1) (chars "ID"))) =
      some (some (chars "X"), some (chars "Y")) := by
  refine ⟨fun d key => ⟨rfl, ?_⟩, by decide⟩
  unfold PropertyDrawer.to_hash_map
  rw [hm_fold]
  simp [hm_get]

theorem lcub_beq_rcub : (lcub == rcub) = false := by decide

theorem rcub_beq_lcub : (rcub == lcub) = false := by decide

theorem lcub_beq_lcub : (lcub == lcub) = true := by decide

theorem rcub_beq_rcub : (rcub == rcub) = true := by decide

theorem balanced_brackets_sound (s : List Char) :
    ∀ (p : Nat) (inner rest : List Char),
      balanced_brackets s (p + 1) = some (inner, rest) →
      s = inner ++ rest ∧ rest.head? = some rcub ∧ BalancedBody p inner := by
  induction s with
  | nil => intro p inner rest h; simp [balanced_brackets] at h
  | cons c r ih =>
    intro p inner rest h
    by_cases hl : c = lcub
    · subst hl
      rw [balanced_brackets, if_pos rfl] at h
      cases hbb : balanced_brackets r (p + 1 + 1) with
      | none => rw [hbb] at h; simp at h
      | some q =>
        rw [hbb] at h
        simp only [Option.map_some', Option.some.injEq] at h
        obtain ⟨inner', rest'⟩ := q
        obtain ⟨hs, hh, hb⟩ := ih (p + 1) inner' rest' hbb
        have hinner : inner = lcub :: inner' := by
          have := congrArg Prod.fst h; simpa using this.symm
        have hrest : rest = rest' := by
          have := congrArg Prod.snd h; simpa using this.symm
        subst hinner hrest
        refine ⟨by rw [List.cons_append, hs], hh, ?_, ?_⟩
        · intro k
          cases k with
          | zero => simp
          | succ k' =>
            rw [List.take_succ_cons]
            have h1 := hb.1 k'
            simp only [List.count_cons, lcub_beq_rcub, rcub_beq_lcub,
              lcub_beq_lcub, rcub_beq_rcub, Bool.false_eq_true, reduceIte]
            omega
        · have h2 := hb.2
          simp only [List.count_cons, lcub_beq_rcub, rcub_beq_lcub,
            lcub_beq_lcub, rcub_beq_rcub, Bool.false_eq_true, reduceIte]
          omega
    · by_cases hr : c = rcub
      · subst hr
        rw [balanced_brackets, if_neg hl, if_pos rfl] at h
        by_cases hp : p + 1 ≠ 1
        · rw [if_pos hp] at h
          obtain ⟨p', hp'⟩ : ∃ p', p = p' + 1 := by
            cases p with
            | zero => exact absurd rfl hp
            | succ n => exact ⟨n, rfl⟩
          subst hp'
          have hsub : p' + 1 + 1 - 1 = p' + 1 := by omega
          rw [hsub] at h
          cases hbb : balanced_brackets r (p' + 1) with
          | none => rw [hbb] at h; simp at h
          | some q =>
            rw [hbb] at h
            simp only [Option.map_some', Option.some.injEq] at h
            obtain ⟨inner', rest'⟩ := q
            obtain ⟨hs, hh, hb⟩ := ih p' inner' rest' hbb
            have hinner : inner = rcub :: inner' := by
              have := congrArg Prod.fst h; simpa using this.symm
            have hrest : rest = rest' := by
              have := congrArg Prod.snd h; simpa using this.symm
            subst hinner hrest
            refine ⟨by rw [List.cons_append, hs], hh, ?_, ?_⟩
            · intro k
              cases k with
              | zero => simp
              | succ k' =>
                rw [List.take_succ_cons]
                have h1 := hb.1 k'
                simp only [List.count_cons, lcub_beq_rcub, rcub_beq_lcub,
                  lcub_beq_lcub, rcub_beq_rcub, Bool.false_eq_true, reduceIte]
                omega
            · have h2 := hb.2
              simp only [List.count_cons, lcub_beq_rcub, rcub_beq_lcub,
                lcub_beq_lcub, rcub_beq_rcub, Bool.false_eq_true, reduceIte]
              omega
        · rw [if_neg hp] at h
          simp only [Option.some.injEq] at h
          have hp0 : p = 0 := by omega
          have hinner : inner = [] := by
            have := congrArg Prod.fst h; simpa using this.symm
          have hrest : rest = rcub :: r := by
            have := congrArg Prod.snd h; simpa using this.symm
          subst hinner hrest hp0
          exact ⟨rfl, rfl, fun k => by simp, by simp⟩
      · rw [balanced_brackets, if_neg hl, if_neg hr] at h
        cases hbb : balanced_brackets r (p + 1) with
        | none => rw [hbb] at h; simp at h
        | some q =>
          rw [hbb] at h
          simp only [Option.map_some', Option.some.injEq] at h
          obtain ⟨inner', rest'⟩ := q
          obtain ⟨hs, hh, hb⟩ := ih p inner' rest' hbb
          have hinner : inner = c :: inner' := by
            have := congrArg Prod.fst h; simpa using this.symm
          have hrest : rest = rest' := by
            have := congrArg Prod.snd h; simpa using this.symm
          subst hinner hrest
          have hne1 : (rcub == c) = false := by
            simp only [beq_eq_false_iff_ne, ne_eq]
            exact fun hcon => hr hcon.symm
          have hne2 : (lcub == c) = false := by
            simp only [beq_eq_false_iff_ne, ne_eq]
            exact fun hcon => hl hcon.symm
          have hne3 : (c == rcub) = false := by
            simp only [beq_eq_false_iff_ne, ne_eq]
            exact hr
          have hne4 : (c == lcub) = false := by
            simp only [beq_eq_false_iff_ne, ne_eq]
            exact hl
          refine ⟨by rw [List.cons_append, hs], hh, ?_, ?_⟩
          · intro k
            cases k with
            | zero => simp
            | succ k' =>
              rw [List.take_succ_cons]
              have h1 := hb.1 k'
              simp only [List.count_cons, hne1, hne2, hne3, hne4,
                Bool.false_eq_true, reduceIte]
              omega
          · have h2 := hb.2
            simp only [List.count_cons, hne1, hne2, hne3, hne4,
              Bool.false_eq_true, reduceIte]
            omega

theorem balanced_brackets_complete (inner : List Char) :
    ∀ (p : Nat) (rest : List Char),
      rest.head? = some rcub → BalancedBody p inner →
      balanced_brackets (inner ++ rest) (p + 1) = some (inner, rest) := by
  induction inner with
  | nil =>
    intro p rest hh hb
    have hp0 : p = 0 := by
      have := hb.2
      simpa using this.symm
    subst hp0
    cases rest with
    | nil => simp at hh
    | cons c r =>
      have hc : c = rcub := by simpa using hh
      subst hc
      rw [List.nil_append, balanced_brackets,
        if_neg (by intro hcon; exact absurd hcon.symm (by decide)),
        if_pos rfl, if_neg (by omega)]
  | cons c inner' ih =>
    intro p rest hh hb
    by_cases hl : c = lcub
    · subst hl
      have hb' : BalancedBody (p + 1) inner' := by
        constructor
        · intro k
          have h1 := hb.1 (k + 1)
          rw [List.take_succ_cons] at h1
          simp only [List.count_cons, lcub_beq_rcub, rcub_beq_lcub,
            lcub_beq_lcub, rcub_beq_rcub, Bool.false_eq_true, reduceIte] at h1
          omega
        · have h2 := hb.2
          simp only [List.count_cons, lcub_beq_rcub, rcub_beq_lcub,
            lcub_beq_lcub, rcub_beq_rcub, Bool.false_eq_true, reduceIte] at h2
          omega
      rw [List.cons_append, balanced_brackets, if_pos rfl, ih (p + 1) rest hh hb']
      rfl
    · by_cases hr : c = rcub
      · subst hr
        obtain ⟨p', hp'⟩ : ∃ p', p = p' + 1 := by
          have h1 := hb.1 1
          simp only [List.take_succ_cons, List.take_zero, List.count_cons,
            List.count_nil, rcub_beq_rcub, rcub_beq_lcub, Bool.false_eq_true,
            reduceIte] at h1
          cases p with
          | zero => omega
          | succ n => exact ⟨n, rfl⟩
        subst hp'
        have hb' : BalancedBody p' inner' := by
          constructor
          · intro k
            have h1 := hb.1 (k + 1)
            rw [List.take_succ_cons] at h1
            simp only [List.count_cons, lcub_beq_rcub, rcub_beq_lcub,
              lcub_beq_lcub, rcub_beq_rcub, Bool.false_eq_true, reduceIte] at h1
            omega
          · have h2 := hb.2
            simp only [List.count_cons, lcub_beq_rcub, rcub_beq_lcub,
              lcub_beq_lcub, rcub_beq_rcub, Bool.false_eq_true, reduceIte] at h2
            omega
        rw [List.cons_append, balanced_brackets,
          if_neg (by intro hcon; exact absurd hcon.symm (by decide)),
          if_pos rfl, if_pos (by omega)]
        have hsub : p' + 1 + 1 - 1 = p' + 1 := by omega
        rw [hsub, ih p' rest hh hb']
        rfl
      · have hne1 : (rcub == c) = false := by
          simp only [beq_eq_false_iff_ne, ne_eq]
          exact fun hcon => hr hcon.symm
        have hne2 : (lcub == c) = false := by
          simp only [beq_eq_false_iff_ne, ne_eq]
          exact fun hcon => hl hcon.symm
        have hne3 : (c == rcub) = false := by
          simp only [beq_eq_false_iff_ne, ne_eq]; exact hr
        have hne4 : (c == lcub) = false := by
          simp only [beq_eq_false_iff_ne, ne_eq]; exact hl
        have hb' : BalancedBody p inner' := by
          constructor
          · intro k
            have h1 := hb.1 (k + 1)
            rw [List.take_succ_cons] at h1
            simp only [List.count_cons, hne1, hne2, hne3, hne4,
              Bool.false_eq_true, reduceIte] at h1
            omega
          · have h2 := hb.2
            simp only [List.count_cons, hne1, hne2, hne3, hne4,
              Bool.false_eq_true, reduceIte] at h2
            omega
        rw [List.cons_append, balanced_brackets, if_neg hl, if_neg hr,
          ih p rest hh hb']
        rfl

theorem template0_iff (s : List Char) :
    (template0 s).isSome = true ↔ s.head? = some '*' := by
  cases s with
  | nil => simp [template0]
  | cons c r =>
    by_cases hc : c = '*'
    · subst hc; simp [template0]
    · simp only [template0, if_neg hc, Option.isSome_none, Bool.false_eq_true,
        false_iff, List.head?_cons, Option.some.injEq]
      exact fun hcon => hc hcon

theorem template1_cons_lcub (r : List Char) :
    template1 (lcub :: r) =
      match balanced_brackets r 1 with
      | none => none
      | some (contents, s2) =>
        match r_curly_token s2 with
        | none => none
        | some (rc, s3) =>
          some ([GreenElement.token L_CURLY [lcub]]
            ++ standard_object_nodes contents ++ [rc], s3) := by
  simp [template1, l_curly_token, char_token]

theorem template1_iff (s : List Char) :
    (template1 s).isSome = true ↔
      ∃ inner suf, s = lcub :: (inner ++ rcub :: suf) ∧ BalancedBody 0 inner := by
  cases s with
  | nil =>
    simp only [template1, l_curly_token, char_token, Option.isSome_none,
      Bool.false_eq_true, false_iff, not_exists]
    intro inner suf h
    simp at h
  | cons c r =>
    by_cases hc : c = lcub
    · subst hc
      rw [template1_cons_lcub]
      cases hbb : balanced_brackets r 1 with
      | none =>
        simp only [Option.isSome_none, Bool.false_eq_true, false_iff, not_exists]
        intro inner suf h
        have hr : r = inner ++ rcub :: suf := by
          have := h.1
          simpa using this
        have hcomp := balanced_brackets_complete inner 0 (rcub :: suf)
          (by simp) h.2
        rw [← hr, hbb] at hcomp
        simp at hcomp
      | some q =>
        obtain ⟨contents, s2⟩ := q
        obtain ⟨hs, hh, hb⟩ := balanced_brackets_sound r 0 contents s2 hbb
        cases s2 with
        | nil => simp at hh
        | cons d s3 =>
          have hd : d = rcub := by simpa using hh
          subst hd
          have hrc : r_curly_token (rcub :: s3) =
              some (GreenElement.token R_CURLY [rcub], s3) := by
            simp [r_curly_token, char_token]
          simp only [hrc, Option.isSome_some, true_iff]
          exact ⟨contents, s3, by rw [hs], hb⟩
    · rw [show template1 (c :: r) = none from by
        simp [template1, l_curly_token, char_token, hc]]
      simp only [Option.isSome_none, Bool.false_eq_true, false_iff, not_exists]
      intro inner suf h
      exact hc (by simpa using congrArg List.head? h.1)

theorem template2_iff (s : List Char) :
    (template2 s).isSome = true ↔
      ((drop_sign s).takeWhile sub_sup_char ≠ [] ∧
        ∃ c, ((drop_sign s).takeWhile sub_sup_char).getLast? = some c ∧
          c.isAlphanum = true) := by
  have hred : template2 s =
      (if (drop_sign s).takeWhile sub_sup_char = [] then none
       else if ¬ ((drop_sign s).takeWhile sub_sup_char).getLast?.elim false
           Char.isAlphanum then none
       else some ((match template2_sign s with
           | some c => [GreenElement.token TEXT [c]]
           | none => []) ++
             [GreenElement.token TEXT ((drop_sign s).takeWhile sub_sup_char)],
         (drop_sign s).drop ((drop_sign s).takeWhile sub_sup_char).length)) := rfl
  rw [hred]
  by_cases h1 : (drop_sign s).takeWhile sub_sup_char = []
  · rw [if_pos h1]
    simp [h1]
  · rw [if_neg h1]
    cases hlast : ((drop_sign s).takeWhile sub_sup_char).getLast? with
    | none => exact absurd (List.getLast?_eq_none_iff.mp hlast) h1
    | some c0 =>
      by_cases ha : c0.isAlphanum = true
      · rw [if_neg (by simpa using ha)]
        simp only [Option.isSome_some, true_iff]
        exact ⟨h1, c0, rfl, ha⟩
      · rw [if_pos (by simpa using ha)]
        simp only [Option.isSome_none, Bool.false_eq_true, false_iff, not_and,
          not_exists]
        intro _ c1 hcon
        injection hcon with h
        subst h
        exact ha

theorem subscript_node_brace_isSome (s : List Char) :
    (subscript_node braceConfig ('_' :: s)).isSome = (template1 s).isSome := by
  have hu : underscore_token ('_' :: s) =
      some (GreenElement.token UNDERSCORE ['_'], s) := by
    simp [underscore_token, char_token]
  simp only [subscript_node, hu]
  have hb : braceConfig.use_sub_superscript.is_brace = true := rfl
  rw [if_pos hb]
  cases template1 s with
  | none => rfl
  | some p => rfl

theorem superscript_node_brace_isSome (s : List Char) :
    (superscript_node braceConfig ('^' :: s)).isSome = (template1 s).isSome := by
  have hu : caret_token ('^' :: s) =
      some (GreenElement.token CARET ['^'], s) := by
    simp [caret_token, char_token]
  simp only [superscript_node, hu]
  have hb : braceConfig.use_sub_superscript.is_brace = true := rfl
  rw [if_pos hb]
  cases template1 s with
  | none => rfl
  | some p => rfl

theorem subscript_node_default_isSome (s : List Char) :
    (subscript_node ParseConfig.default ('_' :: s)).isSome =
      ((template0 s).isSome || (template1 s).isSome || (template2 s).isSome) := by
  have hu : underscore_token ('_' :: s) =
      some (GreenElement.token UNDERSCORE ['_'], s) := by
    simp [underscore_token, char_token]
  simp only [subscript_node, hu]
  rw [if_neg (by simp [ParseConfig.default, UseSubSuperscript.is_brace])]
  cases template0 s with
  | some p => rfl
  | none =>
    cases template1 s with
    | some p => rfl
    | none =>
      cases template2 s with
      | some p => rfl
      | none => rfl

theorem superscript_node_default_isSome (s : List Char) :
    (superscript_node ParseConfig.default ('^' :: s)).isSome =
      ((template0 s).isSome || (template1 s).isSome || (template2 s).isSome) := by
  have hu : caret_token ('^' :: s) =
      some (GreenElement.token CARET ['^'], s) := by
    simp [caret_token, char_token]
  simp only [superscript_node, hu]
  rw [if_neg (by simp [ParseConfig.default, UseSubSuperscript.is_brace])]
  cases template0 s with
  | some p => rfl
  | none =>
    cases template1 s with
    | some p => rfl
    | none =>
      cases template2 s with
      | some p => rfl
      | none => rfl

theorem verify_pre_iff (cfg : ParseConfig) (pre : List Char) :
    verify_pre cfg pre = true ↔
      (cfg.use_sub_superscript.is_nil = false ∧
        ∃ c, pre.getLast? = some c ∧ c ≠ ' ' ∧ c ≠ '\t') := by
  unfold verify_pre
  by_cases hn : cfg.use_sub_superscript.is_nil = true
  · rw [if_pos hn]
    simp [hn]
  · rw [if_neg hn]
    cases hl : pre.getLast? with
    | none =>
      simp only [Bool.not_eq_true] at hn
      simp [hn]
    | some c =>
      simp only [Bool.not_eq_true] at hn
      constructor
      · intro h
        refine ⟨hn, c, rfl, ?_, ?_⟩
        · intro hc
          subst hc
          simp at h
        · intro hc
          subst hc
          simp at h
      · rintro ⟨-, c1, hc1, hsp, htab⟩
        injection hc1 with h
        subst h
        simp only [Bool.not_eq_true', Bool.or_eq_false_iff]
        constructor
        · simpa using hsp
        · simpa using htab

/-- Claim C8 (corrected): the sub/superscript dispatch gate `verify_pre`
requires the configuration to be other than `Nil` and the preceding
character to exist and to be neither a space nor a tab (not, as the claim
says, any non-whitespace character: a preceding newline is allowed); with
brace-only configuration only the braced body form is accepted (`_b`'s body
yields no node, a braced body does); otherwise the body is the first to
match of a single star (`template0`), a brace-balanced braced group
(`template1`), or an optional sign followed by a nonempty maximal run of
alphanumeric/comma/period/backslash characters ending in an alphanumeric
(`template2`). -/
theorem c8_sub_superscript :
    (∀ (cfg : ParseConfig) (pre : List Char),
      verify_pre cfg pre = true ↔
        (cfg.use_sub_superscript.is_nil = false ∧
          ∃ c, pre.getLast? = some c ∧ c ≠ ' ' ∧ c ≠ '\t')) ∧
    (subscript_node braceConfig (chars "_b")).isNone = true ∧
    (subscript_node braceConfig ['_', lcub, 'b', rcub]).isSome = true ∧
    (∀ s, (subscript_node braceConfig ('_' :: s)).isSome = (template1 s).isSome) ∧
    (∀ s, (superscript_node braceConfig ('^' :: s)).isSome = (template1 s).isSome) ∧
    (∀ s, (subscript_node ParseConfig.default ('_' :: s)).isSome =
      ((template0 s).isSome || (template1 s).isSome || (template2 s).isSome)) ∧
    (∀ s, (superscript_node ParseConfig.default ('^' :: s)).isSome =
      ((template0 s).isSome || (template1 s).isSome || (template2 s).isSome)) ∧
    (∀ s, (template0 s).isSome = true ↔ s.head? = some '*') ∧
    (∀ s, (template1 s).isSome = true ↔
      ∃ inner suf, s = lcub :: (inner ++ rcub :: suf) ∧ BalancedBody 0 inner) ∧
    (∀ s, (template2 s).isSome = true ↔
      ((drop_sign s).takeWhile sub_sup_char ≠ [] ∧
        ∃ c, ((drop_sign s).takeWhile sub_sup_char).getLast? = some c ∧
          c.isAlphanum = true)) :=
  ⟨verify_pre_iff, by decide, by decide,
    subscript_node_brace_isSome, superscript_node_brace_isSome,
    subscript_node_default_isSome, superscript_node_default_isSome,
    template0_iff, template1_iff, template2_iff⟩

/-- Counterexample for C8: the claim's precondition "the character
immediately preceding the `_` is non-whitespace" fails: a preceding
newline is whitespace, yet `verify_pre` accepts it and the subscript parser
then succeeds, so a subscript object is parsed. -/
theorem c8_counterexample :
    verify_pre ParseConfig.default (chars "a\n") = true ∧
    (subscript_node ParseConfig.default (chars "_x")).isSome = true ∧
    Char.isWhitespace '\n' = true := by
  refine ⟨by decide, by decide, by decide⟩

/-- Claim C2 (code bug): evaluating `replace_range` on the failing input.
The document `* a\nx\n` with range `[4,5)` (the section text `x`) replaced
by `* c` is routed to the headline-local reparse (InsideHeadline level 1,
ExactHeadline level 1, the edit point follows a newline); the headline
parser consumes only `* a\n` of the edited headline text `* a\n* c\n` and
the unconsumed remainder is discarded, so the document text becomes
`* a\n`, not `old[..4] ++ "* c" ++ old[5..] = "* a\n* c\n"`. -/
theorem c2_replace_range_failing_input :
    ((Org.parse (chars "* a\nx\n")).replace_range (4, 5) (chars "* c")).map
        Org.to_org = some (chars "* a\n") ∧
    (chars "* a\nx\n").take 4 ++ chars "* c" ++ (chars "* a\nx\n").drop 5 =
      chars "* a\n* c\n" ∧
    (some (chars "* a\n") : Option (List Char)) ≠ some (chars "* a\n* c\n") := by
  refine ⟨by decide, by decide, by decide⟩

/-- Claim C3 (code bug): evaluating `replace_range` on the failing input.
On `* a\nx`, replacing range `[4,5)` by `* c` takes the headline-local
path and produces a tree whose leaf text is `* a\n`, while parsing the
edited text `* a\n* c` from scratch gives a tree with leaf text
`* a\n* c`: the trees differ (already in their token text), so the
headline-local reparse does not agree with a whole-document reparse. -/
theorem c3_reparse_divergence :
    ((Org.parse (chars "* a\nx")).replace_range (4, 5) (chars "* c")).map
        Org.to_org = some (chars "* a\n") ∧
    (Org.parse (chars "* a\n* c")).to_org = chars "* a\n* c" ∧
    (some (chars "* a\n") : Option (List Char)) ≠ some (chars "* a\n* c") := by
  refine ⟨by decide, by decide, by decide⟩

theorem g_len_node (k : SyntaxKind) (cs : List GreenElement) :
    g_len (.node k cs) = (leaf_chars_list cs).length := rfl

mutual
theorem nodes_preorder_bound :
    ∀ (g : GreenElement) (o : Nat) (p : Nat × GreenElement),
      p ∈ nodes_preorder o g → o ≤ p.1 ∧ p.1 + g_len p.2 ≤ o + g_len g
  | .token _ _, o, p, h => by simp [nodes_preorder] at h
  | .node k cs, o, p, h => by
    rw [nodes_preorder] at h
    rcases List.mem_cons.mp h with h1 | h2
    · subst h1
      exact ⟨Nat.le_refl o, Nat.le_refl _⟩
    · have hb := nodes_preorder_list_bound cs o p h2
      rw [g_len_node]
      exact hb

theorem nodes_preorder_list_bound :
    ∀ (cs : List GreenElement) (o : Nat) (p : Nat × GreenElement),
      p ∈ nodes_preorder_list o cs →
        o ≤ p.1 ∧ p.1 + g_len p.2 ≤ o + (leaf_chars_list cs).length
  | [], o, p, h => by simp [nodes_preorder_list] at h
  | c :: cs, o, p, h => by
    rw [nodes_preorder_list] at h
    rcases List.mem_append.mp h with h1 | h2
    · have hb := nodes_preorder_bound c o p h1
      refine ⟨hb.1, ?_⟩
      have : o + g_len c ≤ o + (leaf_chars_list (c :: cs)).length := by
        rw [leaf_chars_list]
        simp [g_len]
      exact Nat.le_trans hb.2 this
    · have hb := nodes_preorder_list_bound cs (o + g_len c) p h2
      refine ⟨Nat.le_trans (Nat.le_add_right o (g_len c)) hb.1, ?_⟩
      have heq : o + g_len c + (leaf_chars_list cs).length =
          o + (leaf_chars_list (c :: cs)).length := by
        rw [leaf_chars_list]
        simp [g_len]
        omega
      rw [← heq]
      exact hb.2
end

mutual
theorem node_at_offset_aux_eq :
    ∀ (k : SyntaxKind) (off : Nat) (o : Nat) (g : GreenElement),
      node_at_offset_aux k off o g =
        (nodes_preorder o g).find? fun p =>
          (kind_of p.2 == k) && decide (p.1 ≤ off) &&
            decide (off < p.1 + g_len p.2)
  | k, off, o, .token k0 t => by
    simp [node_at_offset_aux, nodes_preorder]
  | k, off, o, .node k0 cs => by
    rw [node_at_offset_aux, nodes_preorder]
    by_cases hout : off < o ∨ o + g_len (.node k0 cs) ≤ off
    · rw [if_pos hout]
      symm
      rw [List.find?_eq_none]
      intro p hp
      rcases List.mem_cons.mp hp with h1 | h2
      · subst h1
        simp only [Bool.and_eq_true, decide_eq_true_eq, not_and, and_imp]
        intro _ hle hlt
        rcases hout with hout | hout <;> omega
      · have hb := nodes_preorder_list_bound cs o p h2
        simp only [Bool.and_eq_true, decide_eq_true_eq, not_and, and_imp]
        intro _ hle hlt
        rw [g_len_node] at hout
        rcases hout with hout | hout <;> omega
    · rw [if_neg hout]
      push_neg at hout
      by_cases hk : k0 = k
      · rw [if_pos hk]
        symm
        apply List.find?_cons_of_pos
        simp only [kind_of, Bool.and_eq_true, decide_eq_true_eq, beq_iff_eq]
        exact ⟨⟨hk, hout.1⟩, hout.2⟩
      · rw [if_neg hk]
        rw [List.find?_cons_of_neg _ (by
          simp only [kind_of, Bool.and_eq_true, decide_eq_true_eq, beq_iff_eq,
            not_and]
          intro hcon
          exact absurd hcon.1 hk)]
        exact node_at_offset_list_eq k off o cs

theorem node_at_offset_list_eq :
    ∀ (k : SyntaxKind) (off : Nat) (o : Nat) (cs : List GreenElement),
      node_at_offset_list k off o cs =
        (nodes_preorder_list o cs).find? fun p =>
          (kind_of p.2 == k) && decide (p.1 ≤ off) &&
            decide (off < p.1 + g_len p.2)
  | k, off, o, [] => rfl
  | k, off, o, c :: cs => by
    rw [node_at_offset_list, nodes_preorder_list, List.find?_append,
      node_at_offset_aux_eq k off o c]
    cases (nodes_preorder o c).find? fun p =>
        (kind_of p.2 == k) && decide (p.1 ≤ off) &&
          decide (off < p.1 + g_len p.2) with
    | some r => simp
    | none => simp [node_at_offset_list_eq k off (o + g_len c) cs]
end

/-- Claim C4 (corrected): `node_at_offset` returns the first node of the
requested kind in depth-first pre-order among those whose half-open range
contains the offset — the outermost such node, not the innermost — and
`none` whenever the offset is at or past the end of the document. -/
theorem c4_node_at_offset :
    (∀ (k : SyntaxKind) (g : GreenElement) (off : Nat),
      node_at_offset k g off =
        (nodes_preorder 0 g).find? fun p =>
          (kind_of p.2 == k) && decide (p.1 ≤ off) &&
            decide (off < p.1 + g_len p.2)) ∧
    (∀ (k : SyntaxKind) (g : GreenElement) (m : Nat),
      node_at_offset k g (g_len g + m) = none) := by
  constructor
  · intro k g off
    exact node_at_offset_aux_eq k off 0 g
  · intro k g m
    rw [node_at_offset, node_at_offset_aux_eq]
    rw [List.find?_eq_none]
    intro p hp
    have hb := nodes_preorder_bound g 0 p hp
    simp only [Bool.and_eq_true, decide_eq_true_eq, not_and, and_imp]
    intro _ hle hlt
    omega

/-- Counterexample for C4: on `* a\n** b` the offset 5 lies inside both the
level-1 headline (range `[0,8)`) and its nested level-2 sub-headline
(range `[4,8)`); `node_at_offset::<Headline>(5)` returns the outer
headline at `[0,8)`, although the innermost HEADLINE node containing the
offset is the strictly smaller `[4,8)`. -/
theorem c4_counterexample :
    (node_at_offset HEADLINE (Org.parse (chars "* a\n** b")).green 5).map
        (fun p => (p.1, p.1 + g_len p.2)) = some (0, 8) ∧
    ranges_of_kind_containing HEADLINE (Org.parse (chars "* a\n** b")).green 5 =
      [(0, 8), (4, 8)] ∧
    ((0, 8) ≠ ((4 : Nat), (8 : Nat)) ∧ 0 < 4 ∧ 8 ≤ 8) := by
  refine ⟨by decide, by decide, by decide⟩

theorem drop_takeWhile_length {α : Type} (p : α → Bool) (s : List α) :
    s.drop (s.takeWhile p).length = s.dropWhile p := by
  induction s with
  | nil => rfl
  | cons c r ih =>
    by_cases hc : p c = true
    · rw [List.takeWhile_cons_of_pos hc, List.dropWhile_cons_of_pos hc]
      simpa using ih
    · rw [List.takeWhile_cons_of_neg (by simpa using hc),
        List.dropWhile_cons_of_neg (by simpa using hc)]
      simp

theorem takeWhile_split {α : Type} (p : α → Bool) (s : List α) :
    s.takeWhile p ++ s.drop (s.takeWhile p).length = s := by
  rw [drop_takeWhile_length, List.takeWhile_append_dropWhile]

theorem stars_replicate (s : List Char) :
    s.takeWhile (fun c => c = '*') = List.replicate (leading_stars s) '*' := by
  rw [List.eq_replicate_iff]
  refine ⟨rfl, ?_⟩
  intro b hb
  have := List.mem_takeWhile_imp hb
  simpa using this

theorem eol_or_eof_split (s nl r : List Char)
    (h : eol_or_eof s = some (nl, r)) : nl ++ r = s := by
  unfold eol_or_eof at h
  split at h
  all_goals first
    | (simp only [Option.some.injEq, Prod.mk.injEq] at h
       obtain ⟨h1, h2⟩ := h
       subst h1
       subst h2
       simp)
    | simp at h

theorem line_split_split (s : List Char) :
    (line_split s).1 ++ (line_split s).2 = s := by
  unfold line_split
  cases heol : eol_or_eof (s.drop ((s.takeWhile fun c => !is_nl c)).length) with
  | none =>
    exact takeWhile_split (fun c => !is_nl c) s
  | some p =>
    obtain ⟨nl, r⟩ := p
    have hsplit := eol_or_eof_split _ _ _ heol
    have htw := takeWhile_split (fun c => !is_nl c) s
    show (s.takeWhile fun c => !is_nl c) ++ nl ++ r = s
    rw [List.append_assoc, hsplit]
    exact htw

theorem section_split_f_split (fuel : Nat) :
    ∀ s : List Char, (section_split_f fuel s).1 ++ (section_split_f fuel s).2 = s := by
  induction fuel with
  | zero => intro s; simp [section_split_f]
  | succ fuel ih =>
    intro s
    rw [section_split_f]
    by_cases h0 : s = []
    · rw [if_pos h0]; simpa using h0.symm
    · rw [if_neg h0]
      by_cases h1 : is_headline_start s = true
      · rw [if_pos h1]
        show [] ++ s = s
        rw [List.nil_append]
      · rw [if_neg h1]
        show (line_split s).1 ++ (section_split_f fuel (line_split s).2).1 ++
          (section_split_f fuel (line_split s).2).2 = s
        rw [List.append_assoc, ih (line_split s).2, line_split_split]

theorem section_split_split (s : List Char) :
    (section_split s).1 ++ (section_split s).2 = s :=
  section_split_f_split (s.length + 1) s

theorem hn_split (s : List Char) :
    List.replicate (leading_stars s) '*' ++ hn_content s ++ hn_nl s ++
      hn_sec s ++ hn_rest2 s = s := by
  have h1 : List.replicate (leading_stars s) '*' ++ s.drop (leading_stars s) = s := by
    rw [← stars_replicate]
    exact takeWhile_split (fun c => c = '*') s
  have h2 : hn_content s ++ hn_after_content s = s.drop (leading_stars s) := by
    unfold hn_content hn_after_content
    exact takeWhile_split _ _
  have h3 : hn_nl s ++ hn_rest1 s = hn_after_content s := by
    unfold hn_nl hn_rest1
    cases heol : eol_or_eof (hn_after_content s) with
    | none => simp
    | some p =>
      obtain ⟨nl, r⟩ := p
      simpa using eol_or_eof_split _ _ _ heol
  have h4 : hn_sec s ++ hn_rest2 s = hn_rest1 s := section_split_split (hn_rest1 s)
  calc List.replicate (leading_stars s) '*' ++ hn_content s ++ hn_nl s ++
        hn_sec s ++ hn_rest2 s
      = List.replicate (leading_stars s) '*' ++ (hn_content s ++ (hn_nl s ++
          (hn_sec s ++ hn_rest2 s))) := by simp [List.append_assoc]
    _ = List.replicate (leading_stars s) '*' ++ (hn_content s ++ (hn_nl s ++
          hn_rest1 s)) := by rw [h4]
    _ = List.replicate (leading_stars s) '*' ++ (hn_content s ++
          hn_after_content s) := by rw [h3]
    _ = List.replicate (leading_stars s) '*' ++ s.drop (leading_stars s) := by
          rw [h2]
    _ = s := h1

theorem push_nl_leaf (t : List Char) : leaf_chars_list (push_nl t) = t := by
  unfold push_nl
  by_cases h : t = []
  · rw [if_pos h, h]; rfl
  · rw [if_neg h]; simp [leaf_chars_list, leaf_chars]

theorem push_ws_leaf (t : List Char) : leaf_chars_list (push_ws t) = t := by
  unfold push_ws
  by_cases h : t = []
  · rw [if_pos h, h]; rfl
  · rw [if_neg h]; simp [leaf_chars_list, leaf_chars]

theorem sec_nodes_leaf (t : List Char) :
    leaf_chars_list (if t = [] then []
      else [GreenElement.node SECTION [GreenElement.token TEXT t]]) = t := by
  by_cases h : t = []
  · rw [if_pos h, h]; rfl
  · rw [if_neg h]; simp [leaf_chars_list, leaf_chars]

theorem headline_lossless (fuel : Nat) :
    (∀ s el rest, headline_node_f fuel s = some (el, rest) →
      leaf_chars el ++ rest = s) ∧
    (∀ l s, leaf_chars_list (sub_headlines_f fuel l s).1 ++
      (sub_headlines_f fuel l s).2 = s) := by
  induction fuel with
  | zero =>
    constructor
    · intro s el rest h
      simp [headline_node_f] at h
    · intro l s
      simp [sub_headlines_f, leaf_chars_list]
  | succ fuel ih =>
    constructor
    · intro s el rest h
      rw [headline_node_f] at h
      by_cases h0 : leading_stars s = 0
      · rw [if_pos h0] at h; simp at h
      · rw [if_neg h0] at h
        by_cases hsp : (s.drop (leading_stars s)).head? ≠ some ' '
        · rw [if_pos hsp] at h; simp at h
        · rw [if_neg hsp] at h
          simp only [Option.some.injEq, Prod.mk.injEq] at h
          obtain ⟨hel, hrest⟩ := h
          subst hel
          subst hrest
          rw [leaf_chars]
          rw [leaf_chars_list_append, leaf_chars_list_append,
            leaf_chars_list_append]
          have hsubs := ih.2 (leading_stars s) (hn_rest2 s)
          rw [push_nl_leaf, sec_nodes_leaf]
          simp only [leaf_chars_list, leaf_chars, List.append_nil]
          rw [List.append_assoc, List.append_assoc, List.append_assoc,
            List.append_assoc, hsubs]
          have := hn_split s
          simp only [List.append_assoc] at this
          exact this
    · intro l s
      rw [sub_headlines_f]
      by_cases hc : (is_headline_start s && decide (l < leading_stars s)) = true
      · rw [if_pos hc]
        cases hh : headline_node_f fuel s with
        | none => simp [leaf_chars_list]
        | some q =>
          obtain ⟨h, rest⟩ := q
          have hl := ih.1 s h rest hh
          simp only [leaf_chars_list]
          rw [List.append_assoc, ih.2 l rest]
          exact hl
      · rw [if_neg hc]
        simp [leaf_chars_list]

theorem doc_body_lossless (fuel : Nat) :
    ∀ s : List Char, leaf_chars_list (doc_body_f fuel s) = s := by
  induction fuel with
  | zero =>
    intro s
    rw [doc_body_f]
    by_cases h : s = []
    · rw [if_pos h, h]; rfl
    · rw [if_neg h]; simp [leaf_chars_list, leaf_chars]
  | succ fuel ih =>
    intro s
    rw [doc_body_f]
    by_cases h : s = []
    · rw [if_pos h, h]; rfl
    · rw [if_neg h]
      cases hh : headline_node s with
      | some q =>
        obtain ⟨hd, rest⟩ := q
        have hl := (headline_lossless (s.length + 1)).1 s hd rest hh
        simp only [leaf_chars_list]
        rw [ih rest]
        exact hl
      | none =>
        simp only [leaf_chars_list, leaf_chars]
        rw [ih (line_split s).2]
        exact line_split_split s

/-- Claim C1: for every input text and every parse configuration, parsing
and then serializing with `Org::to_org` (the concatenation of the text of
every leaf token of the produced tree in depth-first order) returns the
input byte for byte, and the produced root is a `DOCUMENT` node. -/
theorem c1_lossless_round_trip (cfg : ParseConfig) (input : List Char) :
    Org.to_org (ParseConfig.parse cfg input) = input ∧
    kind_of (ParseConfig.parse cfg input).green = DOCUMENT := by
  constructor
  · show leaf_chars (document_node cfg input) = input
    rw [document_node, leaf_chars, leaf_chars_list_append, sec_nodes_leaf,
      doc_body_lossless]
    exact section_split_split input
  · rfl

theorem latex_toggles_nil (b : Bool) : latex_toggles b [] = b := rfl

theorem latex_toggles_cons (b : Bool) (c : Char) (t : List Char) :
    latex_toggles b (c :: t) = latex_toggles (if c = '$' then !b else b) t := by
  unfold latex_toggles
  rw [List.foldl_cons]

theorem cloze_scan_complete :
    ∀ (t : List Char) (b : Bool) (tail : List Char),
      (∀ i, i < t.length → t.get? i = some rcub →
        latex_toggles b (t.take i) = true) →
      latex_toggles b t = false →
      cloze_scan (t ++ rcub :: tail) b = some t.length := by
  intro t
  induction t with
  | nil =>
    intro b tail hcond hfin
    rw [latex_toggles_nil] at hfin
    rw [List.nil_append, cloze_scan, if_pos ⟨rfl, by simp [hfin]⟩]
    rfl
  | cons c t' ih =>
    intro b tail hcond hfin
    rw [List.cons_append, cloze_scan]
    have hnot : ¬ (c = rcub ∧ ¬ b = true) := by
      rintro ⟨hc, hb⟩
      have h0 := hcond 0 (by simp) (by simp [hc])
      rw [List.take_zero, latex_toggles_nil] at h0
      exact hb h0
    rw [if_neg hnot]
    have hcond' : ∀ i, i < t'.length → t'.get? i = some rcub →
        latex_toggles (if c = '$' then !b else b) (t'.take i) = true := by
      intro i hi hget
      have := hcond (i + 1) (by simpa using Nat.succ_lt_succ hi)
        (by simpa using hget)
      rw [List.take_succ_cons, latex_toggles_cons] at this
      exact this
    have hfin' : latex_toggles (if c = '$' then !b else b) t' = false := by
      rw [latex_toggles_cons] at hfin
      exact hfin
    rw [ih (if c = '$' then !b else b) tail hcond' hfin']
    rfl

theorem cloze_scan_sound :
    ∀ (s : List Char) (b : Bool) (n : Nat), cloze_scan s b = some n →
      ∃ pre suf, s = pre ++ rcub :: suf ∧ pre.length = n ∧
        (∀ i, i < pre.length → pre.get? i = some rcub →
          latex_toggles b (pre.take i) = true) ∧
        latex_toggles b pre = false := by
  intro s
  induction s with
  | nil => intro b n h; simp [cloze_scan] at h
  | cons c r ih =>
    intro b n h
    rw [cloze_scan] at h
    by_cases hc : c = rcub ∧ ¬ b = true
    · rw [if_pos hc] at h
      injection h with h
      subst h
      exact ⟨[], r, by rw [hc.1]; rfl, rfl, by intro i hi; simp at hi,
        by rw [latex_toggles_nil]; simpa using hc.2⟩
    · rw [if_neg hc] at h
      cases hscan : cloze_scan r (if c = '$' then !b else b) with
      | none => rw [hscan] at h; simp at h
      | some m =>
        rw [hscan] at h
        simp only [Option.map_some', Option.some.injEq] at h
        obtain ⟨pre', suf, hs, hlen, hcond, hfin⟩ :=
          ih (if c = '$' then !b else b) m hscan
        refine ⟨c :: pre', suf, by rw [List.cons_append, hs], by simp [hlen, h],
          ?_, ?_⟩
        · intro i hi hget
          cases i with
          | zero =>
            have hcr : c = rcub := by simpa using hget
            rw [List.take_zero, latex_toggles_nil]
            by_cases hb : b = true
            · exact hb
            · exact absurd ⟨hcr, hb⟩ hc
          | succ j =>
            rw [List.take_succ_cons, latex_toggles_cons]
            exact hcond j (by simpa using hi) (by simpa using hget)
        · rw [latex_toggles_cons]
          exact hfin

theorem take_until_rcub_sound :
    ∀ (s pre suf : List Char), take_until_rcub s = some (pre, suf) →
      s = pre ++ suf ∧ suf.head? = some rcub ∧ rcub ∉ pre := by
  intro s
  induction s with
  | nil => intro pre suf h; simp [take_until_rcub] at h
  | cons c r ih =>
    intro pre suf h
    rw [take_until_rcub] at h
    by_cases hc : c = rcub
    · rw [if_pos hc] at h
      simp only [Option.some.injEq, Prod.mk.injEq] at h
      obtain ⟨h1, h2⟩ := h
      subst h1
      subst h2
      exact ⟨rfl, by simp [hc], by simp⟩
    · rw [if_neg hc] at h
      cases htu : take_until_rcub r with
      | none => rw [htu] at h; simp at h
      | some q =>
        obtain ⟨pre', suf'⟩ := q
        rw [htu] at h
        simp only [Option.map_some', Option.some.injEq, Prod.mk.injEq] at h
        obtain ⟨h1, h2⟩ := h
        subst h1
        subst h2
        obtain ⟨hs, hh, hmem⟩ := ih pre' suf' htu
        exact ⟨by rw [List.cons_append, hs], hh, by
          simp only [List.mem_cons, not_or]
          exact ⟨fun hcon => hc hcon.symm, hmem⟩⟩

theorem take_until_rcub_complete :
    ∀ (pre suf : List Char), rcub ∉ pre → suf.head? = some rcub →
      take_until_rcub (pre ++ suf) = some (pre, suf) := by
  intro pre
  induction pre with
  | nil =>
    intro suf hmem hh
    cases suf with
    | nil => simp at hh
    | cons c r =>
      have hc : c = rcub := by simpa using hh
      rw [List.nil_append, take_until_rcub, if_pos hc]
  | cons c pre' ih =>
    intro suf hmem hh
    have hc : ¬ c = rcub := by
      intro hcon
      exact hmem (by simp [hcon])
    rw [List.cons_append, take_until_rcub, if_neg hc,
      ih suf (fun hcon => hmem (by simp [hcon])) hh]
    rfl

theorem cloze_opt_hint_none_snd (s : List Char)
    (h : (cloze_opt_hint s).1 = none) : (cloze_opt_hint s).2 = s := by
  cases s with
  | nil => rfl
  | cons c r =>
    unfold cloze_opt_hint at h ⊢
    dsimp only at h ⊢
    by_cases hc : c = lcub
    · rw [if_pos hc] at h ⊢
      cases htu : take_until_rcub r with
      | none => rfl
      | some q =>
        obtain ⟨hh, suf⟩ := q
        rw [htu] at h
        cases suf with
        | nil => rfl
        | cons d r2 => exact Option.noConfusion h
    · rw [if_neg hc]

theorem cloze_opt_hint_some (s : List Char) (h0 : List Char) (r2 : List Char)
    (h : cloze_opt_hint s = (some h0, r2)) :
    s = lcub :: (h0 ++ rcub :: r2) ∧ rcub ∉ h0 := by
  cases s with
  | nil => exact absurd (congrArg Prod.fst h) (by simp [cloze_opt_hint])
  | cons c r =>
    unfold cloze_opt_hint at h
    dsimp only at h
    by_cases hc : c = lcub
    · rw [if_pos hc] at h
      cases htu : take_until_rcub r with
      | none =>
        rw [htu] at h
        exact absurd (congrArg Prod.fst h) (by simp)
      | some q =>
        obtain ⟨hh, suf⟩ := q
        rw [htu] at h
        cases suf with
        | nil => exact absurd (congrArg Prod.fst h) (by simp)
        | cons d sr =>
          obtain ⟨hs, hhd, hmem⟩ := take_until_rcub_sound r hh (d :: sr) htu
          have hd : d = rcub := by simpa using hhd
          have h1 : hh = h0 := by simpa using congrArg Prod.fst h
          have h2 : sr = r2 := by simpa using congrArg Prod.snd h
          refine ⟨?_, h1 ▸ hmem⟩
          rw [hc, hs, hd, h1, h2]
    · rw [if_neg hc] at h
      exact absurd (congrArg Prod.fst h) (by simp)

theorem cloze_opt_hint_of_shape (h0 r2 : List Char) (hmem : rcub ∉ h0) :
    cloze_opt_hint (lcub :: (h0 ++ rcub :: r2)) = (some h0, r2) := by
  unfold cloze_opt_hint
  dsimp only
  rw [if_pos rfl, take_until_rcub_complete h0 (rcub :: r2) hmem (by simp)]

theorem cloze_opt_hint_not_lcub (s : List Char) (h : s.head? ≠ some lcub) :
    cloze_opt_hint s = (none, s) := by
  cases s with
  | nil => rfl
  | cons c r =>
    unfold cloze_opt_hint
    dsimp only
    rw [if_neg (by intro hcon; exact h (by simp [hcon]))]

theorem cloze_opt_id_none_snd (s : List Char)
    (h : (cloze_opt_id s).1 = none) : (cloze_opt_id s).2 = s := by
  cases s with
  | nil => rfl
  | cons c r =>
    unfold cloze_opt_id at h ⊢
    dsimp only at h ⊢
    by_cases hc : c = '@'
    · rw [if_pos hc] at h ⊢
      cases htu : take_until_rcub r with
      | none => rfl
      | some q =>
        rw [htu] at h
        exact Option.noConfusion h
    · rw [if_neg hc]

theorem cloze_opt_id_some (s : List Char) (i0 : List Char) (r2 : List Char)
    (h : cloze_opt_id s = (some i0, r2)) :
    s = '@' :: (i0 ++ r2) ∧ r2.head? = some rcub ∧ rcub ∉ i0 := by
  cases s with
  | nil => exact absurd (congrArg Prod.fst h) (by simp [cloze_opt_id])
  | cons c r =>
    unfold cloze_opt_id at h
    dsimp only at h
    by_cases hc : c = '@'
    · rw [if_pos hc] at h
      cases htu : take_until_rcub r with
      | none =>
        rw [htu] at h
        exact absurd (congrArg Prod.fst h) (by simp)
      | some q =>
        obtain ⟨ii, suf⟩ := q
        rw [htu] at h
        obtain ⟨hs, hhd, hmem⟩ := take_until_rcub_sound r ii suf htu
        have h1 : ii = i0 := by simpa using congrArg Prod.fst h
        have h2 : suf = r2 := by simpa using congrArg Prod.snd h
        refine ⟨?_, h2 ▸ hhd, h1 ▸ hmem⟩
        rw [hc, hs, h1, h2]
    · rw [if_neg hc] at h
      exact absurd (congrArg Prod.fst h) (by simp)

theorem cloze_opt_id_of_shape (i0 rest : List Char) (hmem : rcub ∉ i0) :
    cloze_opt_id ('@' :: (i0 ++ rcub :: rest)) = (some i0, rcub :: rest) := by
  unfold cloze_opt_id
  dsimp only
  rw [if_pos rfl, take_until_rcub_complete i0 (rcub :: rest) hmem (by simp)]

theorem cloze_opt_id_not_at (s : List Char) (h : s.head? ≠ some '@') :
    cloze_opt_id s = (none, s) := by
  cases s with
  | nil => rfl
  | cons c r =>
    unfold cloze_opt_id
    dsimp only
    rw [if_neg (by intro hcon; exact h (by simp [hcon]))]

theorem l_curly2_token_some (s : List Char) (t : GreenElement) (s1 : List Char)
    (h : l_curly2_token s = some (t, s1)) : s = lcub :: lcub :: s1 := by
  unfold l_curly2_token at h
  cases s with
  | nil => simp at h
  | cons a s' =>
    cases s' with
    | nil => simp at h
    | cons b r =>
      dsimp only at h
      by_cases hab : a = lcub ∧ b = lcub
      · rw [if_pos hab] at h
        simp only [Option.some.injEq, Prod.mk.injEq] at h
        rw [hab.1, hab.2, h.2]
      · rw [if_neg hab] at h
        simp at h

theorem r_curly_token_some (s : List Char) (t : GreenElement) (s1 : List Char)
    (h : r_curly_token s = some (t, s1)) : s = rcub :: s1 := by
  unfold r_curly_token char_token at h
  cases s with
  | nil => simp at h
  | cons c r =>
    dsimp only at h
    by_cases hc : c = rcub
    · rw [if_pos hc] at h
      simp only [Option.some.injEq, Prod.mk.injEq] at h
      rw [hc, h.2]
    · rw [if_neg hc] at h
      simp at h

theorem r_curly_token_cons (s : List Char) :
    r_curly_token (rcub :: s) = some (.token R_CURLY [rcub], s) := by
  simp [r_curly_token, char_token]

theorem at_ne_lcub : ('@' : Char) ≠ lcub := by decide

theorem rcub_ne_lcub : rcub ≠ lcub := by decide

theorem rcub_ne_at : rcub ≠ '@' := by decide

theorem cloze_shape_of_parse (s : List Char)
    (hsome : (cloze_node_base s).isSome = true) : ClozeShape s := by
  unfold cloze_node_base at hsome
  cases hl2 : l_curly2_token s with
  | none => rw [hl2] at hsome; exact absurd hsome (by simp)
  | some q =>
    obtain ⟨l2, s1⟩ := q
    rw [hl2] at hsome
    dsimp only at hsome
    have hs : s = lcub :: lcub :: s1 := l_curly2_token_some s l2 s1 hl2
    cases hscan : cloze_scan s1 false with
    | none => rw [hscan] at hsome; exact absurd hsome (by simp)
    | some n =>
      rw [hscan] at hsome
      cases n with
      | zero => exact absurd hsome (by simp)
      | succ m =>
        dsimp only at hsome
        obtain ⟨pre, suf, hs1, hlen, hcond, hfin⟩ :=
          cloze_scan_sound s1 false (m + 1) hscan
        have hdrop : s1.drop (m + 1) = rcub :: suf := by
          rw [hs1]; exact List.drop_left' hlen
        rw [hdrop, r_curly_token_cons] at hsome
        dsimp only at hsome
        cases hrc2 : r_curly_token (cloze_opt_id ((cloze_opt_hint suf).2)).2 with
        | none => rw [hrc2] at hsome; dsimp only at hsome; exact absurd hsome (by simp)
        | some q2 =>
          obtain ⟨rc2, s6⟩ := q2
          have hshape5 : (cloze_opt_id ((cloze_opt_hint suf).2)).2 = rcub :: s6 :=
            r_curly_token_some _ rc2 s6 hrc2
          have hpre_ne : pre ≠ [] := by
            intro hcon
            rw [hcon] at hlen
            simp at hlen
          have htext : ClozeText pre := ⟨hpre_ne, hfin, hcond⟩
          cases hhint : (cloze_opt_hint suf).1 with
          | some h0 =>
            have hpair : cloze_opt_hint suf = (some h0, (cloze_opt_hint suf).2) := by
              rw [← hhint]
            obtain ⟨hsuf, hmemh⟩ :=
              cloze_opt_hint_some suf h0 ((cloze_opt_hint suf).2) hpair
            cases hid : (cloze_opt_id ((cloze_opt_hint suf).2)).1 with
            | some i0 =>
              have hpair2 : cloze_opt_id ((cloze_opt_hint suf).2) =
                  (some i0, (cloze_opt_id ((cloze_opt_hint suf).2)).2) := by
                rw [← hid]
              obtain ⟨hs4, hhd4, hmemi⟩ :=
                cloze_opt_id_some _ i0 _ hpair2
              refine ⟨pre, some h0, some i0, s6, ?_, htext,
                fun h hh => by injection hh with hh'; exact hh' ▸ hmemh,
                fun i hi => by injection hi with hi'; exact hi' ▸ hmemi⟩
              rw [hs, hs1, hsuf, hs4, hshape5]
              simp [hint_part, id_part, List.append_assoc]
            | none =>
              have hs5 : (cloze_opt_id ((cloze_opt_hint suf).2)).2 =
                  (cloze_opt_hint suf).2 := cloze_opt_id_none_snd _ hid
              refine ⟨pre, some h0, none, s6, ?_, htext,
                fun h hh => by injection hh with hh'; exact hh' ▸ hmemh,
                fun i hi => by exact absurd hi (by simp)⟩
              rw [hs, hs1, hsuf, ← hs5, hshape5]
              simp [hint_part, id_part, List.append_assoc]
          | none =>
            have hs4 : (cloze_opt_hint suf).2 = suf :=
              cloze_opt_hint_none_snd suf hhint
            cases hid : (cloze_opt_id ((cloze_opt_hint suf).2)).1 with
            | some i0 =>
              have hpair2 : cloze_opt_id ((cloze_opt_hint suf).2) =
                  (some i0, (cloze_opt_id ((cloze_opt_hint suf).2)).2) := by
                rw [← hid]
              obtain ⟨hs4', hhd4, hmemi⟩ :=
                cloze_opt_id_some _ i0 _ hpair2
              refine ⟨pre, none, some i0, s6, ?_, htext,
                fun h hh => by exact absurd hh (by simp),
                fun i hi => by injection hi with hi'; exact hi' ▸ hmemi⟩
              rw [hs, hs1, ← hs4, hs4', hshape5]
              simp [hint_part, id_part, List.append_assoc]
            | none =>
              have hs5 : (cloze_opt_id ((cloze_opt_hint suf).2)).2 =
                  (cloze_opt_hint suf).2 := cloze_opt_id_none_snd _ hid
              refine ⟨pre, none, none, s6, ?_, htext,
                fun h hh => by exact absurd hh (by simp),
                fun i hi => by exact absurd hi (by simp)⟩
              rw [hs, hs1, ← hs4, ← hs5, hshape5]
              simp [hint_part, id_part]

theorem cloze_parse_of_shape (s : List Char) (hsh : ClozeShape s) :
    (cloze_node_base s).isSome = true := by
  obtain ⟨text, hint, id, rest, hshape, ⟨hne, hfin, hcond⟩, hhintc, hidc⟩ := hsh
  subst hshape
  unfold cloze_node_base
  have hl2 : l_curly2_token (lcub :: lcub :: (text ++ rcub ::
      (hint_part hint ++ id_part id ++ rcub :: rest))) =
      some (.token L_CURLY2 [lcub, lcub],
        text ++ rcub :: (hint_part hint ++ id_part id ++ rcub :: rest)) := by
    unfold l_curly2_token
    dsimp only
    rw [if_pos ⟨rfl, rfl⟩]
  rw [hl2]
  dsimp only
  obtain ⟨k, hk⟩ : ∃ k, text.length = k + 1 := by
    cases text with
    | nil => exact absurd rfl hne
    | cons a b => exact ⟨b.length, rfl⟩
  have hscan : cloze_scan (text ++ rcub ::
      (hint_part hint ++ id_part id ++ rcub :: rest)) false = some (Nat.succ k) := by
    rw [Nat.succ_eq_add_one, ← hk]
    exact cloze_scan_complete text false _ hcond hfin
  rw [hscan]
  dsimp only
  have hdrop : (text ++ rcub :: (hint_part hint ++ id_part id ++ rcub :: rest)).drop (k + 1)
      = rcub :: (hint_part hint ++ id_part id ++ rcub :: rest) :=
    List.drop_left' hk
  rw [hdrop, r_curly_token_cons]
  dsimp only
  have hhint_eq : cloze_opt_hint (hint_part hint ++ id_part id ++ rcub :: rest)
      = (hint, id_part id ++ rcub :: rest) := by
    cases hint with
    | none =>
      have hnil : hint_part none ++ id_part id ++ rcub :: rest
          = id_part id ++ rcub :: rest := by
        simp [hint_part]
      rw [hnil]
      apply cloze_opt_hint_not_lcub
      cases id with
      | none =>
        intro hcon
        simp only [id_part, List.nil_append, List.head?_cons, Option.some.injEq] at hcon
        exact rcub_ne_lcub hcon
      | some i0 =>
        intro hcon
        simp only [id_part, List.cons_append, List.head?_cons, Option.some.injEq] at hcon
        exact at_ne_lcub hcon
    | some h0 =>
      have heq : hint_part (some h0) ++ id_part id ++ rcub :: rest
          = lcub :: (h0 ++ rcub :: (id_part id ++ rcub :: rest)) := by
        simp [hint_part, List.append_assoc]
      rw [heq]
      exact cloze_opt_hint_of_shape h0 _ (hhintc h0 rfl)
  rw [hhint_eq]
  dsimp only
  have hid_eq : cloze_opt_id (id_part id ++ rcub :: rest) = (id, rcub :: rest) := by
    cases id with
    | none =>
      have hnil : id_part none ++ rcub :: rest = rcub :: rest := by
        simp [id_part]
      rw [hnil]
      apply cloze_opt_id_not_at
      intro hcon
      simp only [List.head?_cons, Option.some.injEq] at hcon
      exact rcub_ne_at hcon
    | some i0 =>
      have heq : id_part (some i0) ++ rcub :: rest = '@' :: (i0 ++ rcub :: rest) := by
        simp [id_part]
      rw [heq]
      exact cloze_opt_id_of_shape i0 rest (hidc i0 rfl)
  rw [hid_eq]
  dsimp only
  rw [r_curly_token_cons]
  rfl

/-- Claim C9: the cloze parser (an Anki-style extension behind the cloze
feature) accepts exactly the four surface forms
`\x7b\x7bTEXT\x7d\x7d`, `\x7b\x7bTEXT\x7d\x7bHINT\x7d\x7d`,
`\x7b\x7bTEXT\x7d@ID\x7d` and `\x7b\x7bTEXT\x7d\x7bHINT\x7d@ID\x7d`, where
TEXT is nonempty, a closing brace may occur inside TEXT only within an
unpaired-`$` latex region (so `\x7b\x7b$\frac\x7ba\x7d\x7bb\x7d$\x7d\x7bfractions\x7d\x7d`
parses with TEXT `$\frac\x7ba\x7d\x7bb\x7d$`), and HINT and ID contain no
closing brace: `cloze_node_base` succeeds iff the input has `ClozeShape`,
and on the fraction example the parsed TEXT span is exactly the latex
fragment. -/
theorem c9_cloze :
    (∀ s, (cloze_node_base s).isSome = true ↔ ClozeShape s) ∧
    (cloze_node_base cloze_frac_input).isSome = true ∧
    ((cloze_node_base cloze_frac_input).map fun p => cloze_text_span p.1) =
      some ('$' :: '\\' :: (chars "frac" ++ [lcub, 'a', rcub, lcub, 'b', rcub, '$'])) :=
  ⟨fun s => ⟨cloze_shape_of_parse s, cloze_parse_of_shape s⟩, by decide, by decide⟩

theorem drop_len_takeWhile (p : Char → Bool) :
    ∀ l : List Char, l.drop (l.takeWhile p).length = l.dropWhile p := by
  intro l
  induction l with
  | nil => rfl
  | cons c r ih =>
    by_cases hc : p c = true
    · rw [List.takeWhile_cons_of_pos hc, List.dropWhile_cons_of_pos hc,
        List.length_cons, List.drop_succ_cons, ih]
    · rw [List.takeWhile_cons_of_neg hc, List.dropWhile_cons_of_neg hc,
        List.length_nil, List.drop_zero]

theorem takeWhile_append_all (p : Char → Bool) (l r : List Char)
    (h : ∀ c ∈ l, p c = true) :
    (l ++ r).takeWhile p = l ++ r.takeWhile p := by
  induction l with
  | nil => rfl
  | cons c t ih =>
    rw [List.cons_append, List.takeWhile_cons_of_pos (h c (by simp)),
      ih fun d hd => h d (by simp [hd]), List.cons_append]

theorem space1_some (s a b : List Char) (h : space1 s = some (a, b)) :
    s = a ++ b ∧ a ≠ [] ∧ ∀ c ∈ a, is_space_tab c = true := by
  cases s with
  | nil => exact absurd h (by simp [space1])
  | cons c r =>
    unfold space1 at h
    dsimp only at h
    by_cases hc : is_space_tab c = true
    · rw [if_pos hc] at h
      have h0 : space0 (c :: r) = (a, b) := Option.some.inj h
      have ha : a = (c :: r).takeWhile is_space_tab := by
        simpa [space0] using (congrArg Prod.fst h0).symm
      have hb : b = (c :: r).dropWhile is_space_tab := by
        simpa [space0] using (congrArg Prod.snd h0).symm
      refine ⟨by rw [ha, hb, List.takeWhile_append_dropWhile], ?_, ?_⟩
      · rw [ha, List.takeWhile_cons_of_pos hc]
        simp
      · intro d hd
        rw [ha] at hd
        exact List.mem_takeWhile_imp hd
    · rw [if_neg hc] at h
      exact Option.noConfusion h

theorem node_property_success_shape (s : List Char) (g : GreenElement)
    (rest : List Char) (h : node_property_node s = some (g, rest)) :
    ∃ ws1 w ws2 tail,
      s = ws1 ++ ':' :: (w ++ (ws2 ++ tail)) ∧
      (∀ c ∈ ws1, is_space_tab c = true) ∧
      w ≠ [] ∧ w.getLast? = some ':' ∧ (∀ c ∈ w, non_ws_char c = true) ∧
      ws2 ≠ [] ∧ (∀ c ∈ ws2, is_space_tab c = true) := by
  unfold node_property_node space0 at h
  dsimp only at h
  cases hdrop : s.dropWhile is_space_tab with
  | nil =>
    rw [hdrop] at h
    exact absurd h (by simp [colon_token, char_token])
  | cons c r =>
    rw [hdrop] at h
    unfold colon_token char_token at h
    dsimp only at h
    by_cases hc : c = ':'
    · rw [if_pos hc] at h
      dsimp only at h
      by_cases hw : r.takeWhile non_ws_char = []
      · rw [if_pos hw] at h
        exact Option.noConfusion h
      · rw [if_neg hw] at h
        by_cases hlast : (r.takeWhile non_ws_char).getLast? = some ':'
        · rw [if_neg (not_not_intro hlast)] at h
          cases hsp : space1 (r.drop (r.takeWhile non_ws_char).length) with
          | none =>
            rw [hsp] at h
            exact Option.noConfusion h
          | some q =>
            obtain ⟨ws2, s4⟩ := q
            obtain ⟨hsplit, hne2, hall2⟩ := space1_some _ ws2 s4 hsp
            rw [drop_len_takeWhile] at hsplit
            refine ⟨s.takeWhile is_space_tab, r.takeWhile non_ws_char, ws2, s4,
              ?_, ?_, hw, hlast, ?_, hne2, hall2⟩
            · conv =>
                lhs
                rw [← List.takeWhile_append_dropWhile is_space_tab s]
              rw [hdrop, hc, ← hsplit, List.takeWhile_append_dropWhile]
            · intro d hd
              exact List.mem_takeWhile_imp hd
            · intro d hd
              exact List.mem_takeWhile_imp hd
        · rw [if_pos hlast] at h
          exact Option.noConfusion h
    · rw [if_neg hc] at h
      exact Option.noConfusion h

theorem node_property_colon_no_ws (key value rest : List Char)
    (hk : key ≠ []) (hknw : ∀ c ∈ key, non_ws_char c = true)
    (hv : value ≠ []) (hvnw : ∀ c ∈ value, non_ws_char c = true) :
    node_property_node (':' :: ((key ++ ':' :: value) ++ '\n' :: rest)) = none := by
  unfold node_property_node space0
  dsimp only
  rw [List.dropWhile_cons_of_neg (by decide), List.takeWhile_cons_of_neg (by decide)]
  unfold colon_token char_token
  dsimp only
  have hb : (':' : Char) = ':' := rfl
  rw [if_pos hb]
  dsimp only
  have hallw : ∀ c ∈ key ++ ':' :: value, non_ws_char c = true := by
    intro c hc
    rcases List.mem_append.1 hc with hc1 | hc2
    · exact hknw c hc1
    · rcases List.mem_cons.1 hc2 with hc3 | hc4
      · rw [hc3]; decide
      · exact hvnw c hc4
  have hweq : ((key ++ ':' :: value) ++ '\n' :: rest).takeWhile non_ws_char
      = key ++ ':' :: value := by
    rw [takeWhile_append_all non_ws_char _ _ hallw,
      List.takeWhile_cons_of_neg (by decide), List.append_nil]
  rw [hweq]
  rw [if_neg (by simp)]
  have hlast_eq : (key ++ ':' :: value).getLast? = value.getLast? := by
    have h1 : key ++ ':' :: value = (key ++ [':']) ++ value := by
      rw [List.append_assoc]
      rfl
    rw [h1]
    exact List.getLast?_append_of_ne_nil _ hv
  by_cases hvl : value.getLast? = some ':'
  · rw [if_neg (not_not_intro (hlast_eq.trans hvl))]
    have hdrop2 : ((key ++ ':' :: value) ++ '\n' :: rest).drop
        (key ++ ':' :: value).length = '\n' :: rest :=
      List.drop_left' rfl
    rw [hdrop2]
    unfold space1
    dsimp only
    rw [if_neg (by decide)]
  · rw [if_pos (fun hcon => hvl (hlast_eq.symm.trans hcon))]

/-- Claim C10: a node property line requires at least one space or tab
between the key's closing colon and the value: whenever
`node_property_node` succeeds, the input decomposes as optional leading
whitespace, a colon, a nonempty non-whitespace run ending in the key's
closing colon, and then a nonempty run of spaces/tabs; consequently a body
line of shape `:KEY:VALUE` (KEY and VALUE nonempty and whitespace-free,
no space after the second colon) is rejected, and
`property_drawer_node` fails on `:PROPERTIES:\n:NAME:VALUE\n:END:\n`
while succeeding on `:PROPERTIES:\n:NAME: VALUE\n:END:\n`. -/
theorem c10_property_colon_requires_space :
    (∀ s, (node_property_node s).isSome = true →
      ∃ ws1 w ws2 tail,
        s = ws1 ++ ':' :: (w ++ (ws2 ++ tail)) ∧
        (∀ c ∈ ws1, is_space_tab c = true) ∧
        w ≠ [] ∧ w.getLast? = some ':' ∧ (∀ c ∈ w, non_ws_char c = true) ∧
        ws2 ≠ [] ∧ (∀ c ∈ ws2, is_space_tab c = true)) ∧
    (∀ key value rest, key ≠ [] → (∀ c ∈ key, non_ws_char c = true) →
      value ≠ [] → (∀ c ∈ value, non_ws_char c = true) →
      node_property_node (':' :: ((key ++ ':' :: value) ++ '\n' :: rest)) = none) ∧
    (property_drawer_node (chars ":PROPERTIES:\n:NAME:VALUE\n:END:\n")).isNone = true ∧
    (property_drawer_node (chars ":PROPERTIES:\n:NAME: VALUE\n:END:\n")).isSome = true :=
  ⟨fun s hs => by
    cases hnp : node_property_node s with
    | none => rw [hnp] at hs; exact absurd hs (by simp)
    | some q =>
      exact node_property_success_shape s q.1 q.2
        (hnp.trans (congrArg some (@Prod.mk.eta _ _ q).symm)),
   node_property_colon_no_ws, by decide, by decide⟩

theorem c10_property_colon_requires_space_witness :
    (∃ ws1 w ws2 tail,
      chars ":A: v\n" = ws1 ++ ':' :: (w ++ (ws2 ++ tail)) ∧
      (∀ c ∈ ws1, is_space_tab c = true) ∧
      w ≠ [] ∧ w.getLast? = some ':' ∧ (∀ c ∈ w, non_ws_char c = true) ∧
      ws2 ≠ [] ∧ (∀ c ∈ ws2, is_space_tab c = true)) ∧
    node_property_node (':' :: ((chars "NAME" ++ ':' :: chars "VALUE") ++ '\n' :: [])) = none :=
  ⟨c10_property_colon_requires_space.1 (chars ":A: v\n") (by decide),
   c10_property_colon_requires_space.2.1 (chars "NAME") (chars "VALUE") []
     (by decide) (by decide) (by decide) (by decide)⟩
